import Mathlib

/-!
Verification of the gemini-cli-wrapper library (`client.go`).

Strings are modelled as `List Char` (Go strings are sequences of runes for
every operation used here: `strings.Split`, `strings.TrimSpace`,
`strings.Contains`, `strings.ToLower`, `strings.Join`).  Durations
(`time.Duration`) are modelled as `Int` nanosecond counts.  Errors built with
`fmt.Errorf` are modelled by the inductive `GoErr`: `msg` is a plain message,
`wrap` is `fmt.Errorf("%s: %w", pre, cause)`, `timeoutAfter` is
`fmt.Errorf("%s after %v", base, d)` (the `%v` duration rendering is kept
symbolic as the integer), `commandFailed` carries the trimmed stdout/stderr
of the detailed failure message, and `osError` stands for an error value
coming from the OS (`exec.LookPath` / `cmd.Start`) whose text the library
only wraps.  The pluggable logger is omitted: every logger used by the
library is side-effect-only and never influences results or control flow.
-/

namespace GeminiCli

/-- Whitespace test used by Go's `strings.TrimSpace` (`unicode.IsSpace`):
the White_Space code points. -/
def isGoSpace (c : Char) : Bool :=
  c = ' ' || c = '\t' || c = '\n' || c = '\x0b' || c = '\x0c' || c = '\r' ||
  c = '\u0085' || c = '\u00A0' || c = '\u1680' ||
  ('\u2000' ≤ c && c ≤ '\u200A') ||
  c = '\u2028' || c = '\u2029' || c = '\u202F' || c = '\u205F' || c = '\u3000'

/-- Left half of `strings.TrimSpace`. -/
def trimLeft (l : List Char) : List Char := l.dropWhile isGoSpace

/-- Right half of `strings.TrimSpace`. -/
def trimRight (l : List Char) : List Char := (l.reverse.dropWhile isGoSpace).reverse

/-- Go's `strings.TrimSpace`. -/
def trimSpace (l : List Char) : List Char := trimLeft (trimRight l)

/-- Go's `strings.Split(s, string(sep))` for a one-character separator:
returns the substrings between occurrences of `sep`, always at least one
piece, including empty pieces. -/
def splitOnChar (sep : Char) : List Char → List (List Char)
  | [] => [[]]
  | c :: cs =>
    match splitOnChar sep cs with
    | [] => [[]]
    | h :: t => if c = sep then [] :: h :: t else (c :: h) :: t

/-- Go's `strings.Join(ls, string(sep))` for a one-character separator. -/
def joinWith (sep : Char) : List (List Char) → List Char
  | [] => []
  | [l] => l
  | l :: l2 :: ls => l ++ sep :: joinWith sep (l2 :: ls)

/-- `strings.Split(output, "\n")` as used by `filterGeminiOutput`. -/
def splitLines (s : List Char) : List (List Char) := splitOnChar '\n' s

/-- `strings.Join(filteredLines, "\n")` as used by `filterGeminiOutput`. -/
def joinLines (ls : List (List Char)) : List Char := joinWith '\n' ls

/-- Go's `strings.Contains(s, pat)`. -/
def containsSub : List Char → List Char → Bool
  | [], pat => pat.isPrefixOf ([] : List Char)
  | c :: t, pat => pat.isPrefixOf (c :: t) || containsSub t pat

/-- ASCII-range rune lowering.  Go's `strings.ToLower` maps every rune with
`unicode.ToLower`; the authentication keywords compared against the lowered
text are pure ASCII, and this model covers the ASCII letters. -/
def toLowerGo (c : Char) : Char :=
  if 'A' ≤ c && c ≤ 'Z' then Char.ofNat (c.toNat + 32) else c

/- Constants from `client.go`. -/

def GeminiCommand : List Char := "gemini".data

def GeminiPromptFlag : List Char := "-p".data

def GeminiModelFlag : List Char := "-m".data

/-- `DefaultTimeout = 30 * time.Second`, in nanoseconds. -/
def DefaultTimeout : Int := 30 * 1000000000

def DefaultModel : List Char := "gemini-2.5-flash".data

def ErrEmptyPrompt : List Char := "prompt cannot be empty".data

def ErrCommandNotFound : List Char := "Gemini command not found in PATH".data

def ErrCommandFailed : List Char := "failed to execute Gemini command".data

def ErrCommandTimeout : List Char := "command timed out".data

def ErrCommandStart : List Char := "failed to start command".data

def ErrParseOutput : List Char := "failed to parse Gemini output".data

def ErrEmptyOutput : List Char := "empty output from Gemini command".data

def ErrAuthFailed : List Char :=
  "authentication error: please check your Gemini API credentials".data

/-- Error values produced with `fmt.Errorf`. -/
inductive GoErr where
  | msg (s : List Char)
  | wrap (pre : List Char) (cause : GoErr)
  | timeoutAfter (base : List Char) (d : Int)
  | commandFailed (stdoutTrim stderrTrim : List Char)
  | osError
deriving DecidableEq, Repr

/-- Filter patterns removed by `filterGeminiOutput`, in source order. -/
def filterPatterns : List (List Char) :=
  ["Loaded cached credentials.",
   "Loading cached credentials",
   "Authenticating",
   "Authentication successful",
   "Connected to Gemini API",
   "Using cached token",
   "Token refreshed"].map String.data

/-- Per-line decision of `filterGeminiOutput`'s loop: a line is appended to
`filteredLines` iff no filter pattern occurs in its trimmed content and the
trimmed content is nonempty. -/
def keepLine (line : List Char) : Bool :=
  !(filterPatterns.any fun pat => containsSub (trimSpace line) pat) &&
  !(trimSpace line).isEmpty

/-- `filterGeminiOutput`: split into lines, keep the lines passing
`keepLine`, rejoin with newlines and trim the result. -/
def filterGeminiOutput (output : List Char) : List Char :=
  trimSpace (joinLines ((splitLines output).filter keepLine))

/-- `parseGeminiOutput`: reject empty input, trim, filter, reject an empty
filtered result; both rejections use the same `ErrEmptyOutput` message. -/
def parseGeminiOutput (output : List Char) : Except GoErr (List Char) :=
  if output.isEmpty then .error (.msg ErrEmptyOutput)
  else
    let result := filterGeminiOutput (trimSpace output)
    if result.isEmpty then .error (.msg ErrEmptyOutput)
    else .ok result

/-- `getAuthErrorKeywords`, in source order. -/
def authErrorKeywords : List (List Char) :=
  ["authentication failed",
   "invalid api key",
   "permission denied",
   "unauthorized",
   "access denied"].map String.data

/-- `containsAnyKeyword`: lower the text once, then test each keyword with
`strings.Contains`. -/
def containsAnyKeyword (text : List Char) (keywords : List (List Char)) : Bool :=
  keywords.any fun keyword => containsSub (text.map toLowerGo) keyword

/-- `detectAuthError`. -/
def detectAuthError (output : List Char) : Bool :=
  containsAnyKeyword output authErrorKeywords

/-- The `Config` struct (logger omitted, see the module comment).  The Go
zero value has `timeout = 0` and empty strings. -/
structure Config where
  timeout : Int
  model : List Char
  workingDirectory : List Char

/-- The `Client` struct (logger omitted). -/
structure Client where
  timeout : Int
  model : List Char
  workingDirectory : List Char
deriving DecidableEq

/-- `NewClient`. -/
def NewClient : Client :=
  { timeout := DefaultTimeout, model := DefaultModel, workingDirectory := [] }

/-- `NewClientWithConfig`: defaults, then each positive/nonempty config field
overrides. -/
def NewClientWithConfig (config : Config) : Client :=
  { timeout := if 0 < config.timeout then config.timeout else DefaultTimeout
    model := if config.model.isEmpty then DefaultModel else config.model
    workingDirectory :=
      if config.workingDirectory.isEmpty then [] else config.workingDirectory }

/-- `buildGeminiCommand` (legacy form without model). -/
def buildGeminiCommand (_c : Client) (prompt : List Char) : List (List Char) :=
  [GeminiCommand, GeminiPromptFlag, prompt]

/-- `buildGeminiCommandWithModel`. -/
def buildGeminiCommandWithModel (c : Client) (prompt : List Char) :
    List (List Char) :=
  [GeminiCommand, GeminiModelFlag, c.model, GeminiPromptFlag, prompt]

/-!
The path resolver.  `resolveRelativePaths` applies
`pathPattern.ReplaceAllStringFunc` with the Go regexp
`(?:\./|\.\./)[\w\-\.\/]+|[\w\-\.\/]*\.(?:txt|md|...)\b`.
Go's regexp package gives leftmost-first (backtracking-equivalent)
semantics, realized below by a specialized matcher: at each position the
first alternative is tried first; its `[\w\-\.\/]+` is greedy with nothing
after it; the second alternative's greedy `[\w\-\.\/]*` backtracks from the
longest run, the extension alternation is tried in source order, and `\b`
requires the next character not to be a word character (every extension ends
in a word character).  `ReplaceAllStringFunc` rewrites the leftmost match
and continues after it; since every match is nonempty, fuel equal to the
string length suffices (`resolveGo`).
-/

/-- Go regexp `\w` (ASCII, no Unicode flag). -/
def wordCharGo (c : Char) : Bool :=
  ('0' ≤ c && c ≤ '9') || ('A' ≤ c && c ≤ 'Z') || ('a' ≤ c && c ≤ 'z') || c = '_'

/-- The character class `[\w\-\.\/]` of `pathPattern`. -/
def pathChar (c : Char) : Bool :=
  wordCharGo c || c = '-' || c = '.' || c = '/'

/-- The extension alternation of `pathPattern`, in source order. -/
def pathExtensions : List (List Char) :=
  ["txt", "md", "go", "js", "py", "json", "yaml", "yml", "xml", "html", "css",
   "sh", "conf", "cfg", "ini", "log", "out", "err", "csv", "tsv", "sql", "db",
   "lock", "mod", "sum", "env", "toml", "proto", "pb", "rs", "c", "cpp", "h",
   "hpp", "java", "kt", "php", "rb", "swift", "dart", "scala", "clj", "hs",
   "elm", "ml", "fs", "pl", "r", "m", "mm", "vue", "jsx", "tsx", "svelte",
   "astro", "wasm", "zip", "tar", "gz", "bz2", "xz", "7z", "rar", "pdf",
   "doc", "docx", "xls", "xlsx", "ppt", "pptx", "png", "jpg", "jpeg", "gif",
   "bmp", "svg", "webp", "ico", "mp3", "mp4", "avi", "mov", "wmv", "flv",
   "mkv", "webm", "wav", "ogg", "flac", "aac", "m4a", "ttf", "otf", "woff",
   "woff2", "eot"].map String.data

/-- The `\b` after the extension group: every extension ends in a word
character, so the boundary holds iff the next character is absent or not a
word character. -/
def wordBoundaryAfter : List Char → Bool
  | [] => true
  | c :: _ => !wordCharGo c

/-- Try the extension alternation, in order, against the text after the
literal dot; each candidate must be a prefix and be followed by `\b`. -/
def matchExtList : List (List Char) → List Char → Option (List Char × List Char)
  | [], _ => none
  | e :: es, t =>
    if e.isPrefixOf t && wordBoundaryAfter (t.drop e.length) then
      some (e, t.drop e.length)
    else matchExtList es t

/-- Attempt the second alternative with exactly `k` characters consumed by
`[\w\-\.\/]*`: requires a literal `.` at position `k`, then an extension then
`\b`; returns the whole match and the remainder. -/
def tryExtAt (s : List Char) (k : Nat) : Option (List Char × List Char) :=
  if (s.drop k).head? = some '.' then
    match matchExtList pathExtensions (s.drop (k + 1)) with
    | some (e, rest) => some (s.take (k + 1) ++ e, rest)
    | none => none
  else none

/-- Greedy backtracking over the star: try `k`, then `k - 1`, … down to 0. -/
def matchBAux (s : List Char) : Nat → Option (List Char × List Char)
  | 0 => tryExtAt s 0
  | k + 1 =>
    match tryExtAt s (k + 1) with
    | some r => some r
    | none => matchBAux s k

/-- The second alternative `[\w\-\.\/]*\.(?:ext|…)\b` at the current
position. -/
def matchAltB (s : List Char) : Option (List Char × List Char) :=
  matchBAux s (s.takeWhile pathChar).length

/-- The first alternative `(?:\./|\.\./)[\w\-\.\/]+` at the current
position (`\./` is tried before `\.\./`). -/
def matchAltA (s : List Char) : Option (List Char × List Char) :=
  let n : Option Nat :=
    if s.take 2 = ['.', '/'] then some 2
    else if s.take 3 = ['.', '.', '/'] then some 3
    else none
  match n with
  | none => none
  | some k =>
    let run := (s.drop k).takeWhile pathChar
    if run.isEmpty then none
    else some (s.take k ++ run, (s.drop k).dropWhile pathChar)

/-- `pathPattern` anchored at the current position: first alternative first. -/
def matchPathToken (s : List Char) : Option (List Char × List Char) :=
  match matchAltA s with
  | some r => some r
  | none => matchAltB s

/-- Leftmost match of `pathPattern`: `(prefix, match, remainder)`. -/
def findPathToken : List Char → Option (List Char × List Char × List Char)
  | [] => none
  | c :: cs =>
    match matchPathToken (c :: cs) with
    | some (m, r) => some ([], m, r)
    | none =>
      match findPathToken cs with
      | some (pre, m, r) => some (c :: pre, m, r)
      | none => none

/-- `filepath.IsAbs` on Unix: the path starts with `/`. -/
def filepathIsAbs (p : List Char) : Bool := p.head? = some '/'

/-- One step of `filepath.Clean`'s element processing: skip empty and `.`
elements; `..` pops a previous element when possible, is dropped at the root,
and is kept when nothing can be popped in a relative path.  The accumulator
holds the output elements in reverse order. -/
def cleanStep (rooted : Bool) (acc : List (List Char)) (seg : List Char) :
    List (List Char) :=
  if seg.isEmpty || seg = ['.'] then acc
  else if seg = ['.', '.'] then
    match acc with
    | [] => if rooted then [] else [seg]
    | top :: rest => if top = ['.', '.'] then seg :: top :: rest else rest
  else seg :: acc

/-- `filepath.Clean` (Unix): lexical path normalization. -/
def filepathClean (p : List Char) : List Char :=
  if p.isEmpty then ['.']
  else
    let rooted := filepathIsAbs p
    let stack := (splitOnChar '/' p).foldl (cleanStep rooted) []
    let body := joinWith '/' stack.reverse
    if rooted then (if body.isEmpty then ['/'] else '/' :: body)
    else (if body.isEmpty then ['.'] else body)

/-- `filepath.Join(a, b)` (Unix): join the nonempty parts with `/` and
clean. -/
def filepathJoin2 (a b : List Char) : List Char :=
  if a.isEmpty then (if b.isEmpty then [] else filepathClean b)
  else filepathClean (a ++ '/' :: b)

/-- The replacement callback of `resolveRelativePaths`: trim the match (a
no-op for every actual match, kept for fidelity), return empty and absolute
matches unchanged, otherwise `filepath.Clean(filepath.Join(baseDir, match))`. -/
def resolvePathToken (baseDir m0 : List Char) : List Char :=
  let m := trimSpace m0
  if m.isEmpty then m
  else if filepathIsAbs m then m
  else filepathClean (filepathJoin2 baseDir m)

/-- `ReplaceAllStringFunc`: rewrite the leftmost match, continue after it.
Each found match is nonempty, so fuel `s.length` is sufficient. -/
def resolveGo (baseDir : List Char) : Nat → List Char → List Char
  | 0, s => s
  | fuel + 1, s =>
    match findPathToken s with
    | none => s
    | some (pre, m, rest) =>
      pre ++ resolvePathToken baseDir m ++ resolveGo baseDir fuel rest

/-- `resolveRelativePaths(prompt, baseDir)`: the Go function returns the
rewritten prompt and a `nil` error on every path. -/
def resolveRelativePaths (prompt baseDir : List Char) :
    List Char × Option GoErr :=
  (resolveGo baseDir prompt.length prompt, none)

/-!
Execution model.  `Execute`/`ExecuteWithTimeout` interact with the OS
(`os.Getwd`, `exec.LookPath`, `os.Getenv("HOME")`, `user.Current`) and run a
child process raced against a timer.  The OS responses are an explicit
environment value, and the observable process side effects (path lookup,
process start, kill) are returned as an ordered trace.  The
select-race in `runCommandWithTimeout` is decided by an oracle in
`RunBehavior`: `completed` means the wait-channel fired first, `timedOut`
means the timer fired first; the `abandoned*` fields of `timedOut` describe
what the abandoned process would eventually have produced, so theorems can
state that the loser of the race cannot influence the outcome.
-/

/-- Outcome oracle for the `select` race in `runCommandWithTimeout`. -/
inductive RunBehavior where
  | startFailure
  | completed (exitErr : Bool) (stdout stderr : List Char)
  | timedOut (abandonedExitErr : Bool) (abandonedStdout abandonedStderr : List Char)
deriving DecidableEq

/-- Observable process side effects, in order of occurrence. -/
inductive Effect where
  | lookPath (name : List Char)
  | processStart (path : List Char) (args : List (List Char)) (dir : List Char)
  | processKill
deriving DecidableEq

/-- OS responses for one call. -/
structure ExecEnv where
  getwd : Option (List Char)
  lookPath : List Char → Option (List Char)
  homeEnv : List Char
  currentUserHome : Option (List Char)
  behavior : RunBehavior

/-- `runCommandWithTimeout`: start the process; on start failure wrap
`ErrCommandStart`.  If the wait-channel wins the race: zero exit returns the
stdout bytes; nonzero exit returns the auth diagnostic when
`detectAuthError` fires on stdout++stderr, else the detailed failure with
trimmed stdout/stderr.  If the timer wins: kill the process (best effort,
kill errors ignored) and return `ErrCommandTimeout after <timeout>`;
the abandoned completion data is never consulted. -/
def runCommandWithTimeout (path : List Char) (args : List (List Char))
    (dir : List Char) (behavior : RunBehavior) (timeout : Int) :
    Except GoErr (List Char) × List Effect :=
  match behavior with
  | .startFailure => (.error (.wrap ErrCommandStart .osError), [.processStart path args dir])
  | .completed exitErr stdout stderr =>
    if exitErr then
      if detectAuthError (stdout ++ stderr) then
        (.error (.msg ErrAuthFailed), [.processStart path args dir])
      else
        (.error (.commandFailed (trimSpace stdout) (trimSpace stderr)),
         [.processStart path args dir])
    else (.ok stdout, [.processStart path args dir])
  | .timedOut _ _ _ =>
    (.error (.timeoutAfter ErrCommandTimeout timeout),
     [.processStart path args dir, .processKill])

/-- The working-directory fallback chain when no directory is configured:
`os.Getwd`, then `$HOME`, then `user.Current().HomeDir` (empty when even
that fails). -/
def fallbackDir (env : ExecEnv) : List Char :=
  match env.getwd with
  | some d =>
    if d.isEmpty then
      (if env.homeEnv.isEmpty then env.currentUserHome.getD [] else env.homeEnv)
    else d
  | none =>
    if env.homeEnv.isEmpty then env.currentUserHome.getD [] else env.homeEnv

/-- Body shared verbatim by `Execute` and `ExecuteWithTimeout` after the
empty-prompt check (the two Go functions duplicate this code; the only
difference is the timeout passed to `runCommandWithTimeout`). -/
def executeCore (c : Client) (prompt : List Char) (timeout : Int)
    (env : ExecEnv) : Except GoErr (List Char) × List Effect :=
  let resolvedPrompt :=
    if !c.workingDirectory.isEmpty then
      match env.getwd with
      | none => prompt
      | some currentDir => (resolveRelativePaths prompt currentDir).1
    else prompt
  let cmdArgs := buildGeminiCommandWithModel c resolvedPrompt
  match env.lookPath (cmdArgs.headD []) with
  | none =>
    (.error (.wrap ("gemini command not found".data) .osError),
     [.lookPath (cmdArgs.headD [])])
  | some geminiPath =>
    let dir := if !c.workingDirectory.isEmpty then c.workingDirectory
               else fallbackDir env
    let run := runCommandWithTimeout geminiPath (cmdArgs.drop 1) dir
                 env.behavior timeout
    let effects := .lookPath (cmdArgs.headD []) :: run.2
    match run.1 with
    | .error e => (.error (.wrap ErrCommandFailed e), effects)
    | .ok output =>
      match parseGeminiOutput output with
      | .error e => (.error (.wrap ErrParseOutput e), effects)
      | .ok result => (.ok result, effects)

/-- `Execute`: reject the empty prompt before any OS interaction, then run
the shared pipeline with the client's configured timeout. -/
def Execute (c : Client) (prompt : List Char) (env : ExecEnv) :
    Except GoErr (List Char) × List Effect :=
  if prompt.isEmpty then (.error (.msg ErrEmptyPrompt), [])
  else executeCore c prompt c.timeout env

/-- `ExecuteWithTimeout`: identical to `Execute` with a caller-supplied
timeout. -/
def ExecuteWithTimeout (c : Client) (prompt : List Char) (timeout : Int)
    (env : ExecEnv) : Except GoErr (List Char) × List Effect :=
  if prompt.isEmpty then (.error (.msg ErrEmptyPrompt), [])
  else executeCore c prompt timeout env

/-! Lemmas about `dropWhile` and the trimming functions. -/

theorem dropWhile_append_of_ne_nil {α : Type} {p : α → Bool} {xs : List α}
    (ys : List α) (h : xs.dropWhile p ≠ []) :
    (xs ++ ys).dropWhile p = xs.dropWhile p ++ ys := by
  rw [List.dropWhile_append]
  simp [List.isEmpty_iff, h]

theorem dropWhile_append_of_nil {α : Type} {p : α → Bool} {xs : List α}
    (ys : List α) (h : xs.dropWhile p = []) :
    (xs ++ ys).dropWhile p = ys.dropWhile p := by
  rw [List.dropWhile_append]
  simp [List.isEmpty_iff, h]

theorem dropWhile_idem {α : Type} (p : α → Bool) (l : List α) :
    (l.dropWhile p).dropWhile p = l.dropWhile p := by
  induction l with
  | nil => rfl
  | cons c t ih =>
    by_cases h : p c <;> simp [List.dropWhile_cons, h, ih]

theorem head_false_of_dropWhile {α : Type} {p : α → Bool} {x y : List α} {c : α}
    (h : x.dropWhile p = c :: y) : p c = false := by
  induction x with
  | nil => simp at h
  | cons a t ih =>
    rw [List.dropWhile_cons] at h
    by_cases ha : p a
    · exact ih (by simpa [ha] using h)
    · have h2 : a :: t = c :: y := by simpa [ha] using h
      have h3 : a = c := (List.cons_eq_cons.mp h2).1
      rw [← h3]
      simpa using ha

theorem trimLeft_cons_pos {c : Char} (l : List Char) (h : isGoSpace c = true) :
    trimLeft (c :: l) = trimLeft l := by
  simp [trimLeft, List.dropWhile_cons, h]

theorem trimLeft_cons_neg {c : Char} (l : List Char) (h : isGoSpace c = false) :
    trimLeft (c :: l) = c :: l := by
  simp [trimLeft, List.dropWhile_cons, h]

theorem trimLeft_eq_nil_iff {l : List Char} :
    trimLeft l = [] ↔ ∀ c ∈ l, isGoSpace c := by
  simp [trimLeft, List.dropWhile_eq_nil_iff]

theorem trimRight_eq_nil_iff {l : List Char} :
    trimRight l = [] ↔ ∀ c ∈ l, isGoSpace c := by
  simp [trimRight, List.dropWhile_eq_nil_iff]

theorem trimLeft_append {l : List Char} (t : List Char) (h : trimLeft l ≠ []) :
    trimLeft (l ++ t) = trimLeft l ++ t := dropWhile_append_of_ne_nil t h

theorem trimLeft_append_allspace {w : List Char} (t : List Char)
    (h : ∀ c ∈ w, isGoSpace c) : trimLeft (w ++ t) = trimLeft t :=
  dropWhile_append_of_nil t (trimLeft_eq_nil_iff.mpr h)

theorem trimRight_append {t : List Char} (l : List Char) (h : trimRight t ≠ []) :
    trimRight (l ++ t) = l ++ trimRight t := by
  have hd : t.reverse.dropWhile isGoSpace ≠ [] := by
    intro he
    exact h (by simp [trimRight, he])
  unfold trimRight
  rw [List.reverse_append, dropWhile_append_of_ne_nil _ hd]
  simp [trimRight]

theorem trimRight_append_allspace {w : List Char} (x : List Char)
    (h : ∀ c ∈ w, isGoSpace c) : trimRight (x ++ w) = trimRight x := by
  unfold trimRight
  rw [List.reverse_append, dropWhile_append_of_nil]
  simp only [List.dropWhile_eq_nil_iff, List.mem_reverse]
  exact h

theorem trimLeft_idem (l : List Char) : trimLeft (trimLeft l) = trimLeft l :=
  dropWhile_idem isGoSpace l

theorem trimRight_idem (l : List Char) : trimRight (trimRight l) = trimRight l := by
  unfold trimRight
  rw [List.reverse_reverse, dropWhile_idem]

theorem trimRight_cons (c : Char) (t : List Char) :
    trimRight (c :: t) =
      if trimRight t = [] then (if isGoSpace c then [] else [c])
      else c :: trimRight t := by
  have hrev : (c :: t).reverse = t.reverse ++ [c] := by simp
  by_cases h : trimRight t = []
  · have hd : t.reverse.dropWhile isGoSpace = [] := by
      simpa [trimRight, List.reverse_eq_nil_iff] using h
    rw [if_pos h]
    unfold trimRight
    rw [hrev, dropWhile_append_of_nil _ hd]
    by_cases hc : isGoSpace c
    · rw [if_pos hc]
      simp [List.dropWhile_cons, hc]
    · rw [if_neg hc]
      simp [List.dropWhile_cons, hc]
  · have hd : t.reverse.dropWhile isGoSpace ≠ [] := fun he =>
      h (by simp [trimRight, he])
    rw [if_neg h]
    unfold trimRight
    rw [hrev, dropWhile_append_of_ne_nil _ hd]
    simp

theorem trimLeft_trimRight_comm (l : List Char) :
    trimLeft (trimRight l) = trimRight (trimLeft l) := by
  induction l with
  | nil => rfl
  | cons c t ih =>
    by_cases hc : isGoSpace c
    · by_cases ht : trimRight t = []
      · have htl : trimLeft t = [] :=
          trimLeft_eq_nil_iff.mpr (trimRight_eq_nil_iff.mp ht)
        rw [trimRight_cons, if_pos ht, if_pos hc, trimLeft_cons_pos _ hc, htl]
        rfl
      · rw [trimRight_cons, if_neg ht, trimLeft_cons_pos _ hc, ih,
          trimLeft_cons_pos _ hc]
    · have hc' : isGoSpace c = false := by simpa using hc
      by_cases ht : trimRight t = []
      · rw [trimRight_cons c t, if_pos ht, if_neg hc,
          trimLeft_cons_neg ([] : List Char) hc', trimLeft_cons_neg t hc',
          trimRight_cons c t, if_pos ht, if_neg hc]
      · rw [trimRight_cons c t, if_neg ht, trimLeft_cons_neg (trimRight t) hc',
          trimLeft_cons_neg t hc', trimRight_cons c t, if_neg ht]

theorem trimRight_decomp (l : List Char) :
    ∃ w, l = trimRight l ++ w ∧ ∀ c ∈ w, isGoSpace c := by
  refine ⟨(l.reverse.takeWhile isGoSpace).reverse, ?_, ?_⟩
  · conv_lhs => rw [← List.reverse_reverse l,
      ← List.takeWhile_append_dropWhile isGoSpace l.reverse]
    rw [List.reverse_append]
    rfl
  · intro c hc
    exact List.mem_takeWhile_imp (List.mem_reverse.mp hc)

theorem trimLeft_decomp (l : List Char) :
    ∃ w, l = w ++ trimLeft l ∧ ∀ c ∈ w, isGoSpace c := by
  refine ⟨l.takeWhile isGoSpace, ?_, ?_⟩
  · exact (List.takeWhile_append_dropWhile isGoSpace l).symm
  · intro c hc
    exact List.mem_takeWhile_imp hc

theorem mem_of_mem_trimLeft {l : List Char} {c : Char} (h : c ∈ trimLeft l) :
    c ∈ l := by
  obtain ⟨w, hw, -⟩ := trimLeft_decomp l
  rw [hw]
  exact List.mem_append_right w h

theorem mem_of_mem_trimRight {l : List Char} {c : Char} (h : c ∈ trimRight l) :
    c ∈ l := by
  obtain ⟨w, hw, -⟩ := trimRight_decomp l
  rw [hw]
  exact List.mem_append_left w h

theorem trimSpace_eq_nil_iff {l : List Char} :
    trimSpace l = [] ↔ ∀ c ∈ l, isGoSpace c := by
  constructor
  · intro h c hc
    obtain ⟨w, hw, hsp⟩ := trimRight_decomp l
    have hall : ∀ c ∈ trimRight l, isGoSpace c := trimLeft_eq_nil_iff.mp h
    rw [hw] at hc
    rcases List.mem_append.mp hc with h1 | h2
    · exact hall c h1
    · exact hsp c h2
  · intro h
    have : trimRight l = [] := trimRight_eq_nil_iff.mpr h
    simp [trimSpace, this, trimLeft]

theorem trimSpace_idem (l : List Char) : trimSpace (trimSpace l) = trimSpace l := by
  unfold trimSpace
  rw [← trimLeft_trimRight_comm (trimRight l), trimLeft_idem, trimRight_idem]

theorem trimSpace_trimLeft (l : List Char) : trimSpace (trimLeft l) = trimSpace l := by
  unfold trimSpace
  rw [← trimLeft_trimRight_comm l, trimLeft_idem]

theorem trimSpace_trimRight (l : List Char) :
    trimSpace (trimRight l) = trimSpace l := by
  unfold trimSpace
  rw [trimRight_idem]

theorem trimSpace_cons_space {c : Char} (l : List Char) (h : isGoSpace c = true) :
    trimSpace (c :: l) = trimSpace l := by
  unfold trimSpace
  rw [trimLeft_trimRight_comm (c :: l), trimLeft_cons_pos _ h,
    ← trimLeft_trimRight_comm l]

theorem keepLine_trimLeft (l : List Char) : keepLine (trimLeft l) = keepLine l := by
  unfold keepLine
  rw [trimSpace_trimLeft]

theorem keepLine_trimRight (l : List Char) : keepLine (trimRight l) = keepLine l := by
  unfold keepLine
  rw [trimSpace_trimRight]

theorem keepLine_cons_space {c : Char} (l : List Char) (h : isGoSpace c = true) :
    keepLine (c :: l) = keepLine l := by
  unfold keepLine
  rw [trimSpace_cons_space _ h]

/-! Lemmas about `splitOnChar` and `joinWith`. -/

theorem splitOnChar_ne_nil (sep : Char) (s : List Char) :
    splitOnChar sep s ≠ [] := by
  cases s with
  | nil => simp [splitOnChar]
  | cons c cs =>
    unfold splitOnChar
    rcases h : splitOnChar sep cs with - | ⟨a, b⟩
    · simp
    · by_cases hc : c = sep <;> simp [hc]

theorem splitOnChar_cons_eq {sep c : Char} {cs h : List Char}
    {t : List (List Char)} (hsp : splitOnChar sep cs = h :: t) :
    splitOnChar sep (c :: cs) =
      if c = sep then [] :: h :: t else (c :: h) :: t := by
  unfold splitOnChar
  rw [hsp]

theorem mem_splitOnChar {sep : Char} {s : List Char} :
    ∀ l ∈ splitOnChar sep s, ∀ c ∈ l, c ∈ s ∧ c ≠ sep := by
  induction s with
  | nil =>
    intro l hl c hc
    simp [splitOnChar] at hl
    simp [hl] at hc
  | cons a cs ih =>
    intro l hl c hc
    rcases hsp : splitOnChar sep cs with - | ⟨h, t⟩
    · exact absurd hsp (splitOnChar_ne_nil sep cs)
    · rw [splitOnChar_cons_eq hsp] at hl
      by_cases ha : a = sep
      · rw [if_pos ha] at hl
        rcases List.mem_cons.mp hl with rfl | hl2
        · simp at hc
        · have := ih l (hsp ▸ hl2) c hc
          exact ⟨List.mem_cons_of_mem a this.1, this.2⟩
      · rw [if_neg ha] at hl
        rcases List.mem_cons.mp hl with rfl | hl2
        · rcases List.mem_cons.mp hc with hceq | hc2
          · subst hceq
            exact ⟨List.mem_cons_self c cs, ha⟩
          · have := ih h (hsp ▸ List.mem_cons_self h t) c hc2
            exact ⟨List.mem_cons_of_mem a this.1, this.2⟩
        · have := ih l (hsp ▸ List.mem_cons_of_mem h hl2) c hc
          exact ⟨List.mem_cons_of_mem a this.1, this.2⟩

theorem joinWith_splitOnChar (sep : Char) (s : List Char) :
    joinWith sep (splitOnChar sep s) = s := by
  induction s with
  | nil => rfl
  | cons c cs ih =>
    rcases hsp : splitOnChar sep cs with - | ⟨h, t⟩
    · exact absurd hsp (splitOnChar_ne_nil sep cs)
    · rw [splitOnChar_cons_eq hsp]
      rw [hsp] at ih
      by_cases hc : c = sep
      · rw [if_pos hc]
        subst hc
        simpa [joinWith] using ih
      · rw [if_neg hc]
        cases t with
        | nil => simpa [joinWith] using ih
        | cons t0 ts =>
          simp only [joinWith] at ih ⊢
          simp [ih]

theorem splitOnChar_no_sep {sep : Char} {l : List Char}
    (h : ∀ c ∈ l, c ≠ sep) : splitOnChar sep l = [l] := by
  induction l with
  | nil => rfl
  | cons a t ih =>
    rw [splitOnChar_cons_eq (ih fun c hc => h c (List.mem_cons_of_mem a hc)),
      if_neg (h a (List.mem_cons_self a t))]

theorem splitOnChar_append_sep {sep : Char} {l : List Char} (r : List Char)
    (h : ∀ c ∈ l, c ≠ sep) :
    splitOnChar sep (l ++ sep :: r) = l :: splitOnChar sep r := by
  induction l with
  | nil =>
    rcases hsp : splitOnChar sep r with - | ⟨a, b⟩
    · exact absurd hsp (splitOnChar_ne_nil sep r)
    · rw [List.nil_append, splitOnChar_cons_eq hsp, if_pos rfl]
  | cons x l2 ih =>
    have htail := ih fun c hc => h c (List.mem_cons_of_mem x hc)
    rw [List.cons_append, splitOnChar_cons_eq htail,
      if_neg (h x (List.mem_cons_self x l2))]

theorem splitOnChar_joinWith {sep : Char} {ls : List (List Char)}
    (hne : ls ≠ []) (h : ∀ l ∈ ls, ∀ c ∈ l, c ≠ sep) :
    splitOnChar sep (joinWith sep ls) = ls := by
  induction ls with
  | nil => exact absurd rfl hne
  | cons l rest ih =>
    cases rest with
    | nil =>
      show splitOnChar sep l = [l]
      exact splitOnChar_no_sep (h l (List.mem_cons_self l []))
    | cons l2 rest2 =>
      show splitOnChar sep (l ++ sep :: joinWith sep (l2 :: rest2)) = _
      rw [splitOnChar_append_sep _ (h l (List.mem_cons_self l _)),
        ih (by simp) fun x hx => h x (List.mem_cons_of_mem l hx)]

theorem joinWith_append (sep : Char) {X Y : List (List Char)}
    (hX : X ≠ []) (hY : Y ≠ []) :
    joinWith sep (X ++ Y) = joinWith sep X ++ sep :: joinWith sep Y := by
  induction X with
  | nil => exact absurd rfl hX
  | cons x X2 ih =>
    cases X2 with
    | nil =>
      cases Y with
      | nil => exact absurd rfl hY
      | cons y Y2 => simp [joinWith]
    | cons x2 X3 =>
      have := ih (by simp)
      show joinWith sep (x :: (x2 :: X3 ++ Y)) = _
      rw [show joinWith sep (x :: (x2 :: X3 ++ Y)) =
          x ++ sep :: joinWith sep (x2 :: X3 ++ Y) from rfl, this]
      simp [joinWith]

theorem mem_joinWith {sep : Char} {ls : List (List Char)} {l : List Char}
    {c : Char} (hl : l ∈ ls) (hc : c ∈ l) : c ∈ joinWith sep ls := by
  induction ls with
  | nil => simp at hl
  | cons a rest ih =>
    cases rest with
    | nil =>
      rcases List.mem_cons.mp hl with rfl | h2
      · exact hc
      · simp at h2
    | cons b rest2 =>
      show c ∈ a ++ sep :: joinWith sep (b :: rest2)
      rcases List.mem_cons.mp hl with rfl | h2
      · exact List.mem_append_left _ hc
      · exact List.mem_append_right _ (List.mem_cons_of_mem sep (ih h2))

theorem mem_joinWith_sources {sep : Char} {ls : List (List Char)} {c : Char}
    (h : c ∈ joinWith sep ls) : c = sep ∨ ∃ l ∈ ls, c ∈ l := by
  induction ls with
  | nil => simp [joinWith] at h
  | cons a rest ih =>
    cases rest with
    | nil =>
      exact Or.inr ⟨a, List.mem_cons_self a [], h⟩
    | cons b rest2 =>
      rcases List.mem_append.mp h with h1 | h2
      · exact Or.inr ⟨a, List.mem_cons_self a _, h1⟩
      · rcases List.mem_cons.mp h2 with rfl | h3
        · exact Or.inl rfl
        · rcases ih h3 with h4 | ⟨l, hl, hcl⟩
          · exact Or.inl h4
          · exact Or.inr ⟨l, List.mem_cons_of_mem a hl, hcl⟩

/-! Rewriting the first and last line: the effect of the outer trims of
`parseGeminiOutput` and `filterGeminiOutput` on the list of surviving
lines. -/

/-- Apply `trimRight` to the last element of a list of lines. -/
def trimLastLine : List (List Char) → List (List Char)
  | [] => []
  | [l] => [trimRight l]
  | l :: l2 :: ls => l :: trimLastLine (l2 :: ls)

/-- Apply `trimLeft` to the first element of a list of lines. -/
def trimHeadLine : List (List Char) → List (List Char)
  | [] => []
  | l :: ls => trimLeft l :: ls

/-- The whole-string trims reach exactly the boundary whitespace of the
first and last line. -/
def boundaryTrim (ls : List (List Char)) : List (List Char) :=
  trimHeadLine (trimLastLine ls)

theorem trimLastLine_append_last (X : List (List Char)) (y : List Char) :
    trimLastLine (X ++ [y]) = X ++ [trimRight y] := by
  induction X with
  | nil => rfl
  | cons x X2 ih =>
    cases X2 with
    | nil => rfl
    | cons x2 X3 =>
      show x :: trimLastLine (x2 :: X3 ++ [y]) = _
      rw [ih]
      rfl

theorem trimLastLine_length (ls : List (List Char)) :
    (trimLastLine ls).length = ls.length := by
  induction ls with
  | nil => rfl
  | cons x X2 ih =>
    cases X2 with
    | nil => rfl
    | cons x2 X3 => simpa [trimLastLine] using ih

theorem trimHeadLine_length (ls : List (List Char)) :
    (trimHeadLine ls).length = ls.length := by
  cases ls <;> simp [trimHeadLine]

theorem mem_trimLastLine {ls : List (List Char)} {l : List Char}
    (h : l ∈ trimLastLine ls) : l ∈ ls ∨ ∃ x ∈ ls, l = trimRight x := by
  induction ls with
  | nil => simp [trimLastLine] at h
  | cons x X2 ih =>
    cases X2 with
    | nil =>
      rcases List.mem_cons.mp h with rfl | h2
      · exact Or.inr ⟨x, List.mem_cons_self x [], rfl⟩
      · simp at h2
    | cons x2 X3 =>
      rcases List.mem_cons.mp h with rfl | h2
      · exact Or.inl (List.mem_cons_self l _)
      · rcases ih h2 with h3 | ⟨a, ha, rfl⟩
        · exact Or.inl (List.mem_cons_of_mem x h3)
        · exact Or.inr ⟨a, List.mem_cons_of_mem x ha, rfl⟩

theorem mem_trimHeadLine {ls : List (List Char)} {l : List Char}
    (h : l ∈ trimHeadLine ls) : l ∈ ls ∨ ∃ x ∈ ls, l = trimLeft x := by
  cases ls with
  | nil => simp [trimHeadLine] at h
  | cons x X2 =>
    rcases List.mem_cons.mp h with rfl | h2
    · exact Or.inr ⟨x, List.mem_cons_self x _, rfl⟩
    · exact Or.inl (List.mem_cons_of_mem x h2)

theorem trimLastLine_idem (ls : List (List Char)) :
    trimLastLine (trimLastLine ls) = trimLastLine ls := by
  induction ls with
  | nil => rfl
  | cons x X2 ih =>
    cases X2 with
    | nil => simp [trimLastLine, trimRight_idem]
    | cons x2 X3 =>
      rcases hr : trimLastLine (x2 :: X3) with - | ⟨y, Y⟩
      · have hlen := trimLastLine_length (x2 :: X3)
        rw [hr] at hlen
        simp at hlen
      · rw [hr] at ih
        rw [show trimLastLine (x :: x2 :: X3) = x :: trimLastLine (x2 :: X3) from rfl,
          hr, show trimLastLine (x :: y :: Y) = x :: trimLastLine (y :: Y) from rfl, ih]

theorem trimLastLine_cons_cons (a b : List Char) (t : List (List Char)) :
    trimLastLine (a :: b :: t) = a :: trimLastLine (b :: t) := rfl

theorem boundaryTrim_trimLastLine (ls : List (List Char)) :
    boundaryTrim (trimLastLine ls) = boundaryTrim ls := by
  unfold boundaryTrim
  rw [trimLastLine_idem]

theorem boundaryTrim_trimHeadLine (ls : List (List Char)) :
    boundaryTrim (trimHeadLine ls) = boundaryTrim ls := by
  unfold boundaryTrim
  cases ls with
  | nil => rfl
  | cons x X2 =>
    cases X2 with
    | nil =>
      show trimHeadLine [trimRight (trimLeft x)] = trimHeadLine [trimRight x]
      simp only [trimHeadLine]
      rw [← trimLeft_trimRight_comm, trimLeft_idem, trimLeft_trimRight_comm]
    | cons x2 X3 =>
      show trimHeadLine (trimLeft x :: trimLastLine (x2 :: X3)) =
        trimHeadLine (x :: trimLastLine (x2 :: X3))
      simp only [trimHeadLine]
      rw [trimLeft_idem]

theorem boundaryTrim_length (ls : List (List Char)) :
    (boundaryTrim ls).length = ls.length := by
  unfold boundaryTrim
  rw [trimHeadLine_length, trimLastLine_length]

/-! How the whole-string trims of `parseGeminiOutput` interact with line
splitting. -/

/-- A line whose trimmed content is empty. -/
def blankLine (l : List Char) : Bool := l.all isGoSpace

theorem blankLine_iff {l : List Char} :
    blankLine l = true ↔ ∀ c ∈ l, isGoSpace c := by
  simp [blankLine, List.all_eq_true]

theorem blankLine_eq_false {l : List Char} (c : Char) (hc : c ∈ l)
    (hn : isGoSpace c = false) : blankLine l = false := by
  cases hb : blankLine l
  · rfl
  · rw [blankLine_iff.mp hb c hc] at hn
    exact Bool.noConfusion hn

theorem keepLine_eq_false_of_blank {l : List Char} (h : blankLine l = true) :
    keepLine l = false := by
  unfold keepLine
  rw [trimSpace_eq_nil_iff.mpr (blankLine_iff.mp h)]
  simp

theorem exists_last {α : Type} {l : List α} (h : l ≠ []) :
    ∃ l0 a, l = l0 ++ [a] := by
  induction l with
  | nil => exact absurd rfl h
  | cons c t ih =>
    cases t with
    | nil => exact ⟨[], c, rfl⟩
    | cons c2 t2 =>
      obtain ⟨l0, a, ha⟩ := ih (by simp)
      exact ⟨c :: l0, a, by simp [ha]⟩

theorem trimRight_join_last {y : List Char} (X : List (List Char))
    (hy : trimRight y ≠ []) :
    trimRight (joinLines (X ++ [y])) = joinLines (X ++ [trimRight y]) := by
  cases X with
  | nil => rfl
  | cons x X2 =>
    have h2 : trimRight ('\n' :: y) = '\n' :: trimRight y := by
      rw [trimRight_cons, if_neg hy]
    have h3 : trimRight ('\n' :: y) ≠ [] := by
      rw [h2]
      simp
    show trimRight (joinWith '\n' ((x :: X2) ++ [y])) =
      joinWith '\n' ((x :: X2) ++ [trimRight y])
    rw [joinWith_append '\n' (by simp) (by simp),
      joinWith_append '\n' (by simp) (by simp),
      show joinWith '\n' [y] = y from rfl,
      show joinWith '\n' [trimRight y] = trimRight y from rfl,
      show joinWith '\n' (x :: X2) ++ '\n' :: y =
        joinWith '\n' (x :: X2) ++ ('\n' :: y) from rfl,
      trimRight_append _ h3, h2]

theorem trimLeft_join_head {x : List Char} (Y : List (List Char))
    (hx : trimLeft x ≠ []) :
    trimLeft (joinLines (x :: Y)) = joinLines (trimLeft x :: Y) := by
  cases Y with
  | nil => rfl
  | cons y Y2 =>
    show trimLeft (x ++ '\n' :: joinWith '\n' (y :: Y2)) =
      trimLeft x ++ '\n' :: joinWith '\n' (y :: Y2)
    exact trimLeft_append _ hx

theorem joinLines_append {X Y : List (List Char)} (hX : X ≠ []) (hY : Y ≠ []) :
    joinLines (X ++ Y) = joinLines X ++ '\n' :: joinLines Y :=
  joinWith_append '\n' hX hY

/-- Trailing all-whitespace lines, removed by a right trim of the whole
string. -/
def dropTrailBlanks (ls : List (List Char)) : List (List Char) :=
  (ls.reverse.dropWhile blankLine).reverse

theorem splitLines_trimRight {s : List Char}
    (h : ∃ c ∈ s, isGoSpace c = false) :
    splitLines (trimRight s) = trimLastLine (dropTrailBlanks (splitLines s)) := by
  obtain ⟨c0, hc0s, hc0n⟩ := h
  have hs : s = joinLines (splitLines s) := (joinWith_splitOnChar '\n' s).symm
  have hABC : splitLines s =
      dropTrailBlanks (splitLines s) ++
        ((splitLines s).reverse.takeWhile blankLine).reverse := by
    unfold dropTrailBlanks
    rw [← List.reverse_append, List.takeWhile_append_dropWhile, List.reverse_reverse]
  have hCblank : ∀ l ∈ ((splitLines s).reverse.takeWhile blankLine).reverse,
      blankLine l = true := fun l hl =>
    List.mem_takeWhile_imp (List.mem_reverse.mp hl)
  have hAnb : ∃ l ∈ splitLines s, blankLine l = false := by
    have hcj : c0 ∈ joinLines (splitLines s) := hs ▸ hc0s
    rcases mem_joinWith_sources hcj with hceq | ⟨l, hl, hcl⟩
    · rw [hceq] at hc0n
      exact absurd hc0n (by decide)
    · exact ⟨l, hl, blankLine_eq_false c0 hcl hc0n⟩
  have hBne : dropTrailBlanks (splitLines s) ≠ [] := by
    intro hBnil
    obtain ⟨l, hl, hlf⟩ := hAnb
    rw [hABC, hBnil, List.nil_append] at hl
    rw [hCblank l hl] at hlf
    exact Bool.noConfusion hlf
  obtain ⟨B0, lk, hB0⟩ := exists_last hBne
  have hBrev : lk :: B0.reverse = (splitLines s).reverse.dropWhile blankLine := by
    have : (dropTrailBlanks (splitLines s)).reverse =
        (splitLines s).reverse.dropWhile blankLine := by
      unfold dropTrailBlanks
      rw [List.reverse_reverse]
    rw [hB0] at this
    simpa using this
  have hlkb : blankLine lk = false := head_false_of_dropWhile hBrev.symm
  have hlkr : trimRight lk ≠ [] := by
    intro he
    rw [blankLine_iff.mpr (trimRight_eq_nil_iff.mp he)] at hlkb
    exact Bool.noConfusion hlkb
  have hmemA : ∀ l ∈ B0 ++ [lk], l ∈ splitLines s := by
    intro l hl
    rw [hABC, hB0]
    exact List.mem_append_left _ hl
  have hstep : trimRight s = joinLines (B0 ++ [trimRight lk]) := by
    conv_lhs => rw [hs, hABC, hB0]
    by_cases hC0 : ((splitLines s).reverse.takeWhile blankLine).reverse = []
    · rw [hC0, List.append_nil]
      exact trimRight_join_last B0 hlkr
    · rw [joinLines_append (by simp) hC0]
      have h2 : ∀ c ∈ ('\n' ::
          joinLines (((splitLines s).reverse.takeWhile blankLine).reverse)),
          isGoSpace c := by
        intro c hc
        rcases List.mem_cons.mp hc with rfl | hc2
        · decide
        · rcases mem_joinWith_sources hc2 with rfl | ⟨l, hl, hcl⟩
          · decide
          · exact blankLine_iff.mp (hCblank l hl) c hcl
      rw [trimRight_append_allspace _ h2]
      exact trimRight_join_last B0 hlkr
  rw [hstep, hB0, trimLastLine_append_last]
  have hfree : ∀ l ∈ B0 ++ [trimRight lk], ∀ c ∈ l, c ≠ '\n' := by
    intro l hl c hc
    rcases List.mem_append.mp hl with hl1 | hl2
    · exact (mem_splitOnChar l (hmemA l (List.mem_append_left _ hl1)) c hc).2
    · have hlk : l = trimRight lk := by simpa using hl2
      exact (mem_splitOnChar lk (hmemA lk (by simp)) c
        (mem_of_mem_trimRight (hlk ▸ hc))).2
  show splitOnChar '\n' (joinWith '\n' (B0 ++ [trimRight lk])) =
    B0 ++ [trimRight lk]
  rw [splitOnChar_joinWith (by simp) hfree]

theorem splitLines_trimLeft {s : List Char}
    (h : ∃ c ∈ s, isGoSpace c = false) :
    splitLines (trimLeft s) = trimHeadLine ((splitLines s).dropWhile blankLine) := by
  obtain ⟨c0, hc0s, hc0n⟩ := h
  have hs : s = joinLines (splitLines s) := (joinWith_splitOnChar '\n' s).symm
  have hACB : splitLines s =
      (splitLines s).takeWhile blankLine ++ (splitLines s).dropWhile blankLine :=
    (List.takeWhile_append_dropWhile blankLine (splitLines s)).symm
  have hCblank : ∀ l ∈ (splitLines s).takeWhile blankLine, blankLine l = true :=
    fun l hl => List.mem_takeWhile_imp hl
  have hAnb : ∃ l ∈ splitLines s, blankLine l = false := by
    have hcj : c0 ∈ joinLines (splitLines s) := hs ▸ hc0s
    rcases mem_joinWith_sources hcj with hceq | ⟨l, hl, hcl⟩
    · rw [hceq] at hc0n
      exact absurd hc0n (by decide)
    · exact ⟨l, hl, blankLine_eq_false c0 hcl hc0n⟩
  have hBne : (splitLines s).dropWhile blankLine ≠ [] := by
    intro hBnil
    obtain ⟨l, hl, hlf⟩ := hAnb
    rw [hACB, hBnil, List.append_nil] at hl
    rw [hCblank l hl] at hlf
    exact Bool.noConfusion hlf
  rcases hB : (splitLines s).dropWhile blankLine with - | ⟨lk, B1⟩
  · exact absurd hB hBne
  have hlkb : blankLine lk = false := head_false_of_dropWhile hB
  have hlkl : trimLeft lk ≠ [] := by
    intro he
    rw [blankLine_iff.mpr (trimLeft_eq_nil_iff.mp he)] at hlkb
    exact Bool.noConfusion hlkb
  have hmemA : ∀ l ∈ lk :: B1, l ∈ splitLines s := by
    intro l hl
    rw [hACB, hB]
    exact List.mem_append_right _ hl
  have hstep : trimLeft s = joinLines (trimLeft lk :: B1) := by
    conv_lhs => rw [hs, hACB, hB]
    by_cases hC0 : (splitLines s).takeWhile blankLine = []
    · rw [hC0, List.nil_append]
      exact trimLeft_join_head B1 hlkl
    · rw [joinLines_append hC0 (by simp)]
      have h2 : ∀ c ∈ (joinLines ((splitLines s).takeWhile blankLine) ++ ['\n']),
          isGoSpace c := by
        intro c hc
        rcases List.mem_append.mp hc with hc1 | hc2
        · rcases mem_joinWith_sources hc1 with rfl | ⟨l, hl, hcl⟩
          · decide
          · exact blankLine_iff.mp (hCblank l hl) c hcl
        · rw [show c = '\n' by simpa using hc2]
          decide
      rw [show joinLines ((splitLines s).takeWhile blankLine) ++ '\n' ::
            joinLines (lk :: B1) =
          (joinLines ((splitLines s).takeWhile blankLine) ++ ['\n']) ++
            joinLines (lk :: B1) by simp,
        trimLeft_append_allspace _ h2]
      exact trimLeft_join_head B1 hlkl
  rw [hstep]
  have hfree : ∀ l ∈ trimLeft lk :: B1, ∀ c ∈ l, c ≠ '\n' := by
    intro l hl c hc
    rcases List.mem_cons.mp hl with rfl | hl2
    · exact (mem_splitOnChar lk (hmemA lk (by simp)) c (mem_of_mem_trimLeft hc)).2
    · exact (mem_splitOnChar l (hmemA l (List.mem_cons_of_mem lk hl2)) c hc).2
  show splitOnChar '\n' (joinWith '\n' (trimLeft lk :: B1)) =
    trimHeadLine (lk :: B1)
  rw [splitOnChar_joinWith (by simp) hfree]
  rfl

/-! The surviving lines of `filterGeminiOutput` and the effect of the outer
trims on them. -/

/-- The lines appended to `filteredLines` by `filterGeminiOutput`'s loop. -/
def survivors (s : List Char) : List (List Char) :=
  (splitLines s).filter keepLine

theorem filterGeminiOutput_eq (s : List Char) :
    filterGeminiOutput s = trimSpace (joinLines (survivors s)) := rfl

theorem exists_nonblank_line {s : List Char}
    (hex : ∃ c ∈ s, isGoSpace c = false) :
    ∃ l ∈ splitLines s, blankLine l = false := by
  obtain ⟨c0, hc0s, hc0n⟩ := hex
  have hs : s = joinLines (splitLines s) := (joinWith_splitOnChar '\n' s).symm
  have hcj : c0 ∈ joinLines (splitLines s) := hs ▸ hc0s
  rcases mem_joinWith_sources hcj with hceq | ⟨l, hl, hcl⟩
  · rw [hceq] at hc0n
    exact absurd hc0n (by decide)
  · exact ⟨l, hl, blankLine_eq_false c0 hcl hc0n⟩

theorem dropTrailBlanks_decomp (ls : List (List Char)) :
    ls = dropTrailBlanks ls ++ (ls.reverse.takeWhile blankLine).reverse ∧
    ∀ l ∈ (ls.reverse.takeWhile blankLine).reverse, blankLine l = true := by
  constructor
  · unfold dropTrailBlanks
    rw [← List.reverse_append, List.takeWhile_append_dropWhile,
      List.reverse_reverse]
  · exact fun l hl => List.mem_takeWhile_imp (List.mem_reverse.mp hl)

theorem dropTrailBlanks_ne_nil {s : List Char}
    (hex : ∃ c ∈ s, isGoSpace c = false) :
    dropTrailBlanks (splitLines s) ≠ [] := by
  intro hBnil
  obtain ⟨l, hl, hlf⟩ := exists_nonblank_line hex
  rw [(dropTrailBlanks_decomp (splitLines s)).1, hBnil, List.nil_append] at hl
  rw [(dropTrailBlanks_decomp (splitLines s)).2 l hl] at hlf
  exact Bool.noConfusion hlf

theorem dropWhile_blank_ne_nil {s : List Char}
    (hex : ∃ c ∈ s, isGoSpace c = false) :
    (splitLines s).dropWhile blankLine ≠ [] := by
  intro hBnil
  obtain ⟨l, hl, hlf⟩ := exists_nonblank_line hex
  rw [← List.takeWhile_append_dropWhile (p := blankLine) (l := splitLines s),
    hBnil, List.append_nil] at hl
  rw [List.mem_takeWhile_imp hl] at hlf
  exact Bool.noConfusion hlf

theorem filter_keep_blanks_suffix {X C : List (List Char)}
    (hC : ∀ l ∈ C, blankLine l = true) :
    (X ++ C).filter keepLine = X.filter keepLine := by
  have hCnil : C.filter keepLine = [] :=
    List.filter_eq_nil_iff.mpr fun l hl => by
      rw [keepLine_eq_false_of_blank (hC l hl)]
      exact Bool.noConfusion
  rw [List.filter_append, hCnil, List.append_nil]

theorem filter_keep_blanks_head {X C : List (List Char)}
    (hC : ∀ l ∈ C, blankLine l = true) :
    (C ++ X).filter keepLine = X.filter keepLine := by
  have hCnil : C.filter keepLine = [] :=
    List.filter_eq_nil_iff.mpr fun l hl => by
      rw [keepLine_eq_false_of_blank (hC l hl)]
      exact Bool.noConfusion
  rw [List.filter_append, hCnil, List.nil_append]

theorem srv_core_right (B0 : List (List Char)) (lk : List Char) :
    boundaryTrim ((trimLastLine (B0 ++ [lk])).filter keepLine) =
      boundaryTrim ((B0 ++ [lk]).filter keepLine) ∧
    ((trimLastLine (B0 ++ [lk])).filter keepLine).length =
      ((B0 ++ [lk]).filter keepLine).length := by
  rw [trimLastLine_append_last, List.filter_append, List.filter_append]
  by_cases hk : keepLine lk = true
  · have hk2 : keepLine (trimRight lk) = true := by
      rw [keepLine_trimRight]
      exact hk
    rw [show List.filter keepLine [trimRight lk] = [trimRight lk] by simp [hk2],
      show List.filter keepLine [lk] = [lk] by simp [hk]]
    refine ⟨?_, by simp⟩
    rw [← trimLastLine_append_last (B0.filter keepLine) lk]
    exact boundaryTrim_trimLastLine _
  · have hk1 : keepLine lk = false := by simpa using hk
    have hk2 : keepLine (trimRight lk) = false := by
      rw [keepLine_trimRight]
      exact hk1
    rw [show List.filter keepLine [trimRight lk] = [] by simp [hk2],
      show List.filter keepLine [lk] = [] by simp [hk1]]
    exact ⟨rfl, rfl⟩

theorem srv_core_left (lk : List Char) (B1 : List (List Char)) :
    boundaryTrim ((trimHeadLine (lk :: B1)).filter keepLine) =
      boundaryTrim ((lk :: B1).filter keepLine) ∧
    ((trimHeadLine (lk :: B1)).filter keepLine).length =
      ((lk :: B1).filter keepLine).length := by
  rw [show trimHeadLine (lk :: B1) = trimLeft lk :: B1 from rfl]
  by_cases hk : keepLine lk = true
  · have hk2 : keepLine (trimLeft lk) = true := by
      rw [keepLine_trimLeft]
      exact hk
    rw [List.filter_cons_of_pos hk2, List.filter_cons_of_pos hk]
    refine ⟨?_, by simp⟩
    have : trimLeft lk :: B1.filter keepLine =
        trimHeadLine (lk :: B1.filter keepLine) := rfl
    rw [this]
    exact boundaryTrim_trimHeadLine _
  · have hk1 : keepLine lk = false := by simpa using hk
    have hk2 : keepLine (trimLeft lk) = false := by
      rw [keepLine_trimLeft]
      exact hk1
    rw [List.filter_cons_of_neg (by simp [hk2]),
      List.filter_cons_of_neg (by simp [hk1])]
    exact ⟨rfl, rfl⟩

theorem survivors_nil : survivors [] = [] := by decide

theorem survivors_eq_nil_of_allspace {s : List Char}
    (hall : ∀ c ∈ s, isGoSpace c) : survivors s = [] :=
  List.filter_eq_nil_iff.mpr fun l hl => by
    rw [keepLine_eq_false_of_blank (blankLine_iff.mpr
      fun c hc => hall c (mem_splitOnChar l hl c hc).1)]
    exact Bool.noConfusion

theorem not_allspace_iff {s : List Char} :
    ¬(∀ c ∈ s, isGoSpace c) ↔ ∃ c ∈ s, isGoSpace c = false := by
  constructor
  · intro h
    rcases not_forall.mp h with ⟨c, hc⟩
    rcases Classical.em (c ∈ s) with hm | hm
    · exact ⟨c, hm, by simpa [hm] using hc⟩
    · exact absurd (fun hcs => absurd hcs hm) hc
  · rintro ⟨c, hc, hn⟩ h
    rw [h c hc] at hn
    exact Bool.noConfusion hn

theorem boundaryTrim_srv_trimRight (s : List Char) :
    boundaryTrim (survivors (trimRight s)) = boundaryTrim (survivors s) ∧
    (survivors (trimRight s)).length = (survivors s).length := by
  by_cases hall : ∀ c ∈ s, isGoSpace c
  · rw [trimRight_eq_nil_iff.mpr hall, survivors_nil,
      survivors_eq_nil_of_allspace hall]
    exact ⟨rfl, rfl⟩
  · have hex := not_allspace_iff.mp hall
    obtain ⟨B0, lk, hB0⟩ := exists_last (dropTrailBlanks_ne_nil hex)
    have key : (splitLines s).filter keepLine = (B0 ++ [lk]).filter keepLine := by
      conv_lhs => rw [(dropTrailBlanks_decomp (splitLines s)).1, hB0]
      exact filter_keep_blanks_suffix (dropTrailBlanks_decomp (splitLines s)).2
    unfold survivors
    rw [splitLines_trimRight hex, hB0, key]
    exact srv_core_right B0 lk

theorem boundaryTrim_srv_trimLeft (s : List Char) :
    boundaryTrim (survivors (trimLeft s)) = boundaryTrim (survivors s) ∧
    (survivors (trimLeft s)).length = (survivors s).length := by
  by_cases hall : ∀ c ∈ s, isGoSpace c
  · rw [trimLeft_eq_nil_iff.mpr hall, survivors_nil,
      survivors_eq_nil_of_allspace hall]
    exact ⟨rfl, rfl⟩
  · have hex := not_allspace_iff.mp hall
    rcases hB : (splitLines s).dropWhile blankLine with - | ⟨lk, B1⟩
    · exact absurd hB (dropWhile_blank_ne_nil hex)
    have key : (splitLines s).filter keepLine = (lk :: B1).filter keepLine := by
      conv_lhs =>
        rw [← List.takeWhile_append_dropWhile (p := blankLine) (l := splitLines s),
          hB]
      exact filter_keep_blanks_head fun l hl => List.mem_takeWhile_imp hl
    unfold survivors
    rw [splitLines_trimLeft hex, hB, key]
    exact srv_core_left lk B1

theorem boundaryTrim_srv_trimSpace (s : List Char) :
    boundaryTrim (survivors (trimSpace s)) = boundaryTrim (survivors s) ∧
    (survivors (trimSpace s)).length = (survivors s).length := by
  have h1 := boundaryTrim_srv_trimLeft (trimRight s)
  have h2 := boundaryTrim_srv_trimRight s
  exact ⟨h1.1.trans h2.1, h1.2.trans h2.2⟩

/-- The outer trim of the joined survivors reaches exactly the boundary
whitespace of the first and last surviving line. -/
theorem trimSpace_joinLines {K : List (List Char)} (hne : K ≠ [])
    (hnb : ∀ l ∈ K, trimSpace l ≠ []) :
    trimSpace (joinLines K) = joinLines (boundaryTrim K) := by
  obtain ⟨K0, lk, hK⟩ := exists_last hne
  have hlkr : trimRight lk ≠ [] := fun he =>
    hnb lk (by rw [hK]; simp) (by rw [trimSpace, he]; rfl)
  have h1 : trimRight (joinLines K) = joinLines (trimLastLine K) := by
    rw [hK, trimRight_join_last K0 hlkr, trimLastLine_append_last]
  show trimLeft (trimRight (joinLines K)) = joinLines (boundaryTrim K)
  rw [h1]
  cases hK0 : K0 with
  | nil =>
    rw [hK, hK0]
    rfl
  | cons k0 K0b =>
    have h2 : trimLastLine K = k0 :: (K0b ++ [trimRight lk]) := by
      rw [hK, hK0, trimLastLine_append_last]
      rfl
    rw [h2]
    have hk0 : trimLeft k0 ≠ [] := fun he =>
      hnb k0 (by rw [hK, hK0]; simp) (by
        rw [trimSpace, trimLeft_trimRight_comm, he]
        rfl)
    rw [trimLeft_join_head _ hk0]
    rw [show boundaryTrim K = trimHeadLine (trimLastLine K) from rfl, h2]
    rfl

/-! Lemmas about `containsSub`. -/

theorem containsSub_iff {s pat : List Char} :
    containsSub s pat = true ↔ pat <:+: s := by
  induction s with
  | nil =>
    simp [containsSub, List.isPrefixOf_iff_prefix]
  | cons c t ih =>
    simp only [containsSub, Bool.or_eq_true, List.isPrefixOf_iff_prefix, ih,
      List.infix_cons_iff]

theorem pre_map_iff {f : Char → Char} {t s : List Char} :
    t <+: s.map f ↔ ∃ u, u <+: s ∧ u.map f = t := by
  induction s generalizing t with
  | nil =>
    constructor
    · intro h
      exact ⟨[], List.nil_prefix, by simpa [List.prefix_nil] using h⟩
    · rintro ⟨u, hu, rfl⟩
      simp [List.prefix_nil.mp hu]
  | cons c s ih =>
    constructor
    · intro h
      match t, h with
      | [], _ => exact ⟨[], List.nil_prefix, rfl⟩
      | a :: t, h =>
        rw [List.map_cons, List.cons_prefix_cons] at h
        obtain ⟨ha, ht⟩ := h
        obtain ⟨u, hu, hmap⟩ := ih.mp ht
        exact ⟨c :: u, List.cons_prefix_cons.mpr ⟨rfl, hu⟩, by simp [hmap, ha]⟩
    · rintro ⟨u, hu, rfl⟩
      exact hu.map f

theorem inf_map_iff {f : Char → Char} {t s : List Char} :
    t <:+: s.map f ↔ ∃ u, u <:+: s ∧ u.map f = t := by
  induction s generalizing t with
  | nil =>
    constructor
    · intro h
      exact ⟨[], List.infix_rfl, by simpa [List.infix_nil] using h⟩
    · rintro ⟨u, hu, rfl⟩
      simp [List.infix_nil.mp hu]
  | cons c s ih =>
    rw [List.map_cons, List.infix_cons_iff, ← List.map_cons, pre_map_iff, ih]
    constructor
    · rintro (⟨u, hu, rfl⟩ | ⟨u, hu, rfl⟩)
      · exact ⟨u, List.IsPrefix.isInfix hu, rfl⟩
      · exact ⟨u, ( List.infix_cons_iff).mpr (Or.inr hu), rfl⟩
    · rintro ⟨u, hu, rfl⟩
      rcases ( List.infix_cons_iff).mp hu with h | h
      · exact Or.inl ⟨u, h, rfl⟩
      · exact Or.inr ⟨u, h, rfl⟩

/-! Filter phrases are found in the trimmed line exactly when they occur in
the raw line: no phrase starts or ends in whitespace, so an occurrence can
never straddle the trimmed boundary. -/

/-- The pattern is nonempty and starts with a non-whitespace character. -/
def headNonSpace (pat : List Char) : Bool :=
  match pat with
  | [] => false
  | c :: _ => !isGoSpace c

theorem inf_trimLeft_iff {pat l : List Char} (h : headNonSpace pat = true) :
    pat <:+: trimLeft l ↔ pat <:+: l := by
  rcases hp : pat with - | ⟨c, cs⟩
  · rw [hp] at h
    exact absurd h (by simp [headNonSpace])
  have hc : isGoSpace c = false := by
    rw [hp] at h
    simpa [headNonSpace] using h
  constructor
  · intro hin
    exact List.IsInfix.trans hin ( List.IsSuffix.isInfix (List.dropWhile_suffix isGoSpace))
  · intro hin
    induction l with
    | nil =>
      rw [show trimLeft [] = [] from rfl]
      exact hin
    | cons a t ih =>
      by_cases ha : isGoSpace a
      · rw [trimLeft_cons_pos _ ha]
        rcases List.infix_cons_iff.mp hin with h1 | h2
        · have hca : c = a := (List.cons_prefix_cons.mp h1).1
          rw [hca, ha] at hc
          exact Bool.noConfusion hc
        · exact ih h2
      · rw [trimLeft_cons_neg _ (by simpa using ha)]
        exact hin

theorem trimRight_reverse (l : List Char) :
    (trimRight l).reverse = trimLeft l.reverse := by
  simp [trimRight, trimLeft]

theorem inf_trimRight_iff {pat l : List Char}
    (h : headNonSpace pat.reverse = true) :
    pat <:+: trimRight l ↔ pat <:+: l := by
  constructor
  · intro hin
    have h2 : pat.reverse <:+: (trimRight l).reverse :=
      List.reverse_infix.mpr hin
    rw [trimRight_reverse] at h2
    exact List.reverse_infix.mp ((inf_trimLeft_iff h).mp h2)
  · intro hin
    have h2 : pat.reverse <:+: trimLeft l.reverse :=
      (inf_trimLeft_iff h).mpr ( List.reverse_infix.mpr hin)
    rw [← trimRight_reverse] at h2
    exact List.reverse_infix.mp h2

theorem inf_trimSpace_iff {pat l : List Char}
    (h1 : headNonSpace pat = true) (h2 : headNonSpace pat.reverse = true) :
    pat <:+: trimSpace l ↔ pat <:+: l := by
  unfold trimSpace
  rw [inf_trimLeft_iff h1, inf_trimRight_iff h2]

theorem filterPatterns_boundary :
    ∀ pat ∈ filterPatterns,
      headNonSpace pat = true ∧ headNonSpace pat.reverse = true := by decide

/-- The line-dropping test of `filterGeminiOutput`, expressed against the
raw (untrimmed) line. -/
theorem keepLine_iff (l : List Char) :
    keepLine l = true ↔
      (trimSpace l ≠ [] ∧ ∀ pat ∈ filterPatterns, ¬ pat <:+: l) := by
  unfold keepLine
  rw [Bool.and_eq_true]
  constructor
  · rintro ⟨hA, hB⟩
    have hA2 : (filterPatterns.any fun pat =>
        containsSub (trimSpace l) pat) = false := by simpa using hA
    refine ⟨by simpa [List.isEmpty_iff] using hB, ?_⟩
    intro pat hpat hinf
    have htr : pat <:+: trimSpace l :=
      (inf_trimSpace_iff (filterPatterns_boundary pat hpat).1
        (filterPatterns_boundary pat hpat).2).mpr hinf
    have : (filterPatterns.any fun pat => containsSub (trimSpace l) pat) = true :=
      List.any_eq_true.mpr ⟨pat, hpat, containsSub_iff.mpr htr⟩
    rw [hA2] at this
    exact Bool.noConfusion this
  · rintro ⟨hne, hpat⟩
    refine ⟨?_, by simpa [List.isEmpty_iff] using hne⟩
    have : (filterPatterns.any fun pat =>
        containsSub (trimSpace l) pat) = false := by
      rcases hA : (filterPatterns.any fun pat =>
          containsSub (trimSpace l) pat) with - | -
      · rfl
      · obtain ⟨pat, hp, hc⟩ := List.any_eq_true.mp hA
        have := (inf_trimSpace_iff (filterPatterns_boundary pat hp).1
          (filterPatterns_boundary pat hp).2).mp (containsSub_iff.mp hc)
        exact absurd this (hpat pat hp)
    simp [this]

/-! Structure of a successful `parseGeminiOutput`. -/

theorem parse_ok_elim {s r : List Char} (h : parseGeminiOutput s = .ok r) :
    s ≠ [] ∧ r = filterGeminiOutput (trimSpace s) ∧ r ≠ [] := by
  unfold parseGeminiOutput at h
  by_cases h1 : s.isEmpty
  · rw [if_pos h1] at h
    exact absurd h (by simp)
  · rw [if_neg h1] at h
    by_cases h2 : (filterGeminiOutput (trimSpace s)).isEmpty
    · simp [h2] at h
    · simp only [h2, if_false, Bool.false_eq_true] at h
      have h3 : filterGeminiOutput (trimSpace s) = r := by
        simpa using h
      exact ⟨by simpa [List.isEmpty_iff] using h1, h3.symm,
        fun hrn => h2 (by rw [h3, hrn]; rfl)⟩

theorem parse_ok_structure {s r : List Char}
    (h : parseGeminiOutput s = .ok r) :
    survivors (trimSpace s) ≠ [] ∧
    (∀ l ∈ survivors (trimSpace s), trimSpace l ≠ []) ∧
    r = joinLines (boundaryTrim (survivors (trimSpace s))) := by
  obtain ⟨hs, hr, hrne⟩ := parse_ok_elim h
  have hKne : survivors (trimSpace s) ≠ [] := by
    intro hK
    rw [filterGeminiOutput_eq, hK] at hr
    exact hrne hr
  have hKnb : ∀ l ∈ survivors (trimSpace s), trimSpace l ≠ [] := by
    intro l hl he
    have hk := (List.mem_filter.mp hl).2
    unfold keepLine at hk
    rw [he] at hk
    simp at hk
  exact ⟨hKne, hKnb, by
    rw [hr, filterGeminiOutput_eq, trimSpace_joinLines hKne hKnb]⟩

/-- Claim C1 (amended): for every raw output whose sanitization succeeds,
the result is the surviving lines of the input, in original order, rejoined
with newlines — verbatim except that the whole-string trims remove leading
whitespace from the first surviving line and trailing whitespace from the
last; a line survives iff its trimmed content is nonempty and no filter
phrase occurs as a substring anywhere in the line. -/
theorem c1_filter_lines {output r : List Char}
    (h : parseGeminiOutput output = .ok r) :
    r = joinLines (boundaryTrim ((splitLines output).filter keepLine)) ∧
    (∀ l, keepLine l = true ↔
      (trimSpace l ≠ [] ∧ ∀ pat ∈ filterPatterns, ¬ pat <:+: l)) := by
  obtain ⟨-, -, hr⟩ := parse_ok_structure h
  refine ⟨?_, keepLine_iff⟩
  rw [hr, (boundaryTrim_srv_trimSpace output).1]
  rfl

/-- Claim C1, witness: the spec's own interleaving example, instantiating
the amended theorem. -/
theorem c1_filter_lines_witness :
    parseGeminiOutput
        ("Loading cached credentials\nAuthentication successful\nHello, world!\nThis is a response.".data) =
      .ok ("Hello, world!\nThis is a response.".data) ∧
    ("Hello, world!\nThis is a response.".data =
      joinLines (boundaryTrim ((splitLines
        ("Loading cached credentials\nAuthentication successful\nHello, world!\nThis is a response.".data)).filter
          keepLine)) ∧
     (∀ l, keepLine l = true ↔
       (trimSpace l ≠ [] ∧ ∀ pat ∈ filterPatterns, ¬ pat <:+: l))) :=
  ⟨rfl, c1_filter_lines rfl⟩

/-- Claim C1, counterexample to the claim as stated: on the input
`"x \nAuthenticating"` sanitization succeeds with result `"x"`, but the
single surviving input line is `"x "` — the result is not the surviving
lines kept verbatim (the trailing space of the last surviving line is
trimmed). -/
theorem c1_counterexample :
    parseGeminiOutput ("x \nAuthenticating".data) = .ok ("x".data) ∧
    (splitLines ("x \nAuthenticating".data)).filter keepLine = ["x ".data] ∧
    joinLines ["x ".data] ≠ "x".data :=
  ⟨rfl, by decide, by decide⟩

theorem filterGeminiOutput_eq_nil_iff (s : List Char) :
    filterGeminiOutput (trimSpace s) = [] ↔
      ∀ l ∈ splitLines s, keepLine l = false := by
  rw [filterGeminiOutput_eq]
  constructor
  · intro h
    have hK : survivors (trimSpace s) = [] := by
      by_contra hKne
      rcases hKs : survivors (trimSpace s) with - | ⟨k0, Kr⟩
      · exact hKne hKs
      have hk0 : keepLine k0 = true := by
        have : k0 ∈ survivors (trimSpace s) := by
          rw [hKs]
          exact List.mem_cons_self k0 Kr
        exact (List.mem_filter.mp this).2
      have h1 : trimSpace k0 ≠ [] := by
        intro he
        unfold keepLine at hk0
        rw [he] at hk0
        simp at hk0
      obtain ⟨c, hc, hcn⟩ : ∃ c ∈ k0, isGoSpace c = false :=
        not_allspace_iff.mp fun hall => h1 (trimSpace_eq_nil_iff.mpr hall)
      have hcj : c ∈ joinLines (survivors (trimSpace s)) :=
        mem_joinWith (by rw [hKs]; exact List.mem_cons_self k0 Kr) hc
      rw [trimSpace_eq_nil_iff] at h
      rw [h c hcj] at hcn
      exact Bool.noConfusion hcn
    have hlen := (boundaryTrim_srv_trimSpace s).2
    rw [hK] at hlen
    have hSnil : survivors s = [] :=
      List.eq_nil_of_length_eq_zero hlen.symm
    intro l hl
    have := List.filter_eq_nil_iff.mp hSnil l hl
    simpa using this
  · intro h
    have hSnil : survivors s = [] :=
      List.filter_eq_nil_iff.mpr fun l hl => by
        rw [h l hl]
        exact Bool.noConfusion
    have hlen := (boundaryTrim_srv_trimSpace s).2
    rw [hSnil] at hlen
    rw [List.eq_nil_of_length_eq_zero hlen]
    rfl

/-- Claim C2: `ParseGeminiOutput` fails exactly when the input is empty or
every input line is dropped by filtering (blank after trimming, or a filter
phrase occurs in the trimmed line), and every failure carries the identical
`ErrEmptyOutput` error, indistinguishable between the two cases; in
particular an input consisting only of filter-listed lines yields this
error. -/
theorem c2_parse_error_iff :
    (∀ output : List Char, ∀ e : GoErr,
      parseGeminiOutput output = .error e ↔
        (e = .msg ErrEmptyOutput ∧
         (output = [] ∨ ∀ l ∈ splitLines output,
            trimSpace l = [] ∨ ∃ pat ∈ filterPatterns,
              containsSub (trimSpace l) pat = true))) ∧
    parseGeminiOutput
        ("Loaded cached credentials.\nAuthenticating\nConnected to Gemini API".data) =
      .error (.msg ErrEmptyOutput) := by
  have hkeep : ∀ l : List Char, keepLine l = false ↔
      (trimSpace l = [] ∨ ∃ pat ∈ filterPatterns,
        containsSub (trimSpace l) pat = true) := by
    intro l
    unfold keepLine
    rcases hA : (filterPatterns.any fun pat =>
        containsSub (trimSpace l) pat) with - | -
    · constructor
      · intro h
        left
        rcases h2 : (trimSpace l).isEmpty with - | -
        · rw [h2] at h
          simp at h
        · exact List.isEmpty_iff.mp h2
      · rintro (h1 | ⟨pat, hpat, hc⟩)
        · rw [show (trimSpace l).isEmpty = true by rw [h1]; rfl]
          simp
        · have := List.any_eq_true.mpr ⟨pat, hpat, hc⟩
          rw [hA] at this
          exact Bool.noConfusion this
    · constructor
      · intro _
        exact Or.inr (List.any_eq_true.mp hA)
      · intro _
        simp
  refine ⟨?_, rfl⟩
  intro output e
  constructor
  · intro h
    unfold parseGeminiOutput at h
    by_cases h1 : output.isEmpty
    · rw [if_pos h1] at h
      have he : GoErr.msg ErrEmptyOutput = e := by simpa using h
      exact ⟨he.symm, Or.inl (List.isEmpty_iff.mp h1)⟩
    · rw [if_neg h1] at h
      by_cases h2 : (filterGeminiOutput (trimSpace output)).isEmpty
      · have he : GoErr.msg ErrEmptyOutput = e := by
          simp only [h2, if_true] at h
          simpa using h
        refine ⟨he.symm, Or.inr ?_⟩
        intro l hl
        exact (hkeep l).mp
          ((filterGeminiOutput_eq_nil_iff output).mp (List.isEmpty_iff.mp h2) l hl)
      · simp [h2] at h
  · rintro ⟨rfl, h1 | h2⟩
    · rw [h1]
      rfl
    · unfold parseGeminiOutput
      by_cases h1 : output.isEmpty
      · rw [if_pos h1]
      · rw [if_neg h1]
        have hnil : filterGeminiOutput (trimSpace output) = [] :=
          (filterGeminiOutput_eq_nil_iff output).mpr
            fun l hl => (hkeep l).mpr (h2 l hl)
        simp [hnil]

/-- Claim C10: sanitization is idempotent — whenever `ParseGeminiOutput`
succeeds with result `r`, parsing `r` again succeeds and returns `r`
unchanged. -/
theorem c10_parse_idempotent {output r : List Char}
    (h : parseGeminiOutput output = .ok r) : parseGeminiOutput r = .ok r := by
  obtain ⟨hKne, hKnb, hr⟩ := parse_ok_structure h
  have hBne : boundaryTrim (survivors (trimSpace output)) ≠ [] := by
    intro hB
    have hlen := boundaryTrim_length (survivors (trimSpace output))
    rw [hB] at hlen
    exact hKne (List.eq_nil_of_length_eq_zero hlen.symm)
  have hBmem : ∀ l ∈ boundaryTrim (survivors (trimSpace output)),
      ∃ x ∈ survivors (trimSpace output),
        trimSpace l = trimSpace x ∧ ∀ c ∈ l, c ∈ x := by
    intro l hl
    rcases mem_trimHeadLine hl with hl2 | ⟨y, hy, rfl⟩
    · rcases mem_trimLastLine hl2 with hl3 | ⟨x, hx, rfl⟩
      · exact ⟨l, hl3, rfl, fun c hc => hc⟩
      · exact ⟨x, hx, trimSpace_trimRight x, fun c hc => mem_of_mem_trimRight hc⟩
    · rcases mem_trimLastLine hy with hl3 | ⟨x, hx, rfl⟩
      · exact ⟨y, hl3, trimSpace_trimLeft y, fun c hc => mem_of_mem_trimLeft hc⟩
      · refine ⟨x, hx, ?_, fun c hc =>
          mem_of_mem_trimRight (mem_of_mem_trimLeft hc)⟩
        rw [trimSpace_trimLeft, trimSpace_trimRight]
  have hBkeep : ∀ l ∈ boundaryTrim (survivors (trimSpace output)),
      keepLine l = true := by
    intro l hl
    obtain ⟨x, hx, hts, -⟩ := hBmem l hl
    have hkx : keepLine x = true := (List.mem_filter.mp hx).2
    unfold keepLine at hkx ⊢
    rw [hts]
    exact hkx
  have hBnb : ∀ l ∈ boundaryTrim (survivors (trimSpace output)),
      trimSpace l ≠ [] := by
    intro l hl
    obtain ⟨x, hx, hts, -⟩ := hBmem l hl
    rw [hts]
    exact hKnb x hx
  have hfree : ∀ l ∈ boundaryTrim (survivors (trimSpace output)),
      ∀ c ∈ l, c ≠ '\n' := by
    intro l hl c hc
    obtain ⟨x, hx, -, hsub⟩ := hBmem l hl
    exact (mem_splitOnChar x (List.mem_filter.mp hx).1 c (hsub c hc)).2
  have hsplit : splitLines r = boundaryTrim (survivors (trimSpace output)) := by
    rw [hr]
    show splitOnChar '\n' (joinWith '\n' _) = _
    exact splitOnChar_joinWith hBne hfree
  have hrne : r ≠ [] := (parse_ok_elim h).2.2
  have htrimr : trimSpace r = r := by
    rw [(parse_ok_elim h).2.1, filterGeminiOutput_eq]
    exact trimSpace_idem _
  have hF : filterGeminiOutput (trimSpace r) = r := by
    rw [htrimr, filterGeminiOutput_eq]
    unfold survivors
    rw [hsplit, List.filter_eq_self.mpr hBkeep, ← hr, htrimr]
  unfold parseGeminiOutput
  rw [if_neg (by simpa [List.isEmpty_iff] using hrne)]
  show (if (filterGeminiOutput (trimSpace r)).isEmpty = true
    then (Except.error (GoErr.msg ErrEmptyOutput) : Except GoErr (List Char))
    else Except.ok (filterGeminiOutput (trimSpace r))) = Except.ok r
  rw [hF, if_neg (by simpa [List.isEmpty_iff] using hrne)]

/-- Claim C10, witness: instantiating the idempotence theorem on the spec's
interleaving example. -/
theorem c10_parse_idempotent_witness :
    parseGeminiOutput
        ("Loading cached credentials\nHello, world!\nThis is a response.".data) =
      .ok ("Hello, world!\nThis is a response.".data) ∧
    parseGeminiOutput ("Hello, world!\nThis is a response.".data) =
      .ok ("Hello, world!\nThis is a response.".data) :=
  ⟨rfl, @c10_parse_idempotent
    ("Loading cached credentials\nHello, world!\nThis is a response.".data)
    ("Hello, world!\nThis is a response.".data) rfl⟩

/-- Claim C6: `DetectAuthError` returns true iff the output contains one of
the five fixed phrases `"authentication failed"`, `"invalid api key"`,
`"permission denied"`, `"unauthorized"`, `"access denied"` as a
case-insensitive substring (a contiguous run of the output whose lowering
equals the keyword). -/
theorem c6_detect_auth_error_iff (output : List Char) :
    detectAuthError output = true ↔
      ∃ kw ∈ authErrorKeywords, ∃ sub, sub <:+: output ∧ sub.map toLowerGo = kw := by
  unfold detectAuthError containsAnyKeyword
  rw [List.any_eq_true]
  constructor
  · rintro ⟨kw, hkw, hc⟩
    obtain ⟨u, hu, hmap⟩ := inf_map_iff.mp (containsSub_iff.mp hc)
    exact ⟨kw, hkw, u, hu, hmap⟩
  · rintro ⟨kw, hkw, u, hu, hmap⟩
    exact ⟨kw, hkw, containsSub_iff.mpr (inf_map_iff.mpr ⟨u, hu, hmap⟩)⟩

/-- Claim C4: for every configuration and prompt, the built command is the
5-element list `["gemini", "-m", model, "-p", prompt]` where an empty
configured model is replaced by the default model, the model argument is
never empty, and the prompt is the last element, verbatim. -/
theorem c4_build_command (config : Config) (prompt : List Char) :
    buildGeminiCommandWithModel (NewClientWithConfig config) prompt =
      [GeminiCommand, GeminiModelFlag,
       if config.model.isEmpty then DefaultModel else config.model,
       GeminiPromptFlag, prompt] ∧
    (buildGeminiCommandWithModel (NewClientWithConfig config) prompt).length = 5 ∧
    (buildGeminiCommandWithModel (NewClientWithConfig config) prompt).getLast? =
      some prompt ∧
    (NewClientWithConfig config).model ≠ [] := by
  refine ⟨rfl, rfl, rfl, ?_⟩
  by_cases h : config.model.isEmpty
  · simp [NewClientWithConfig, h, DefaultModel]
  · simp only [NewClientWithConfig, h, if_false, Bool.false_eq_true]
    simpa [List.isEmpty_iff] using h

/-- Claim C8: every client produced by `NewClientWithConfig` (and by
`NewClient`) has a strictly positive timeout: a zero or negative configured
timeout is replaced by the 30-second default at construction.  (No method of
the library ever writes the field after construction.) -/
theorem c8_timeout_positive (config : Config) :
    0 < (NewClientWithConfig config).timeout ∧ 0 < NewClient.timeout := by
  constructor
  · by_cases h : 0 < config.timeout
    · simp only [NewClientWithConfig, if_pos h]
      exact h
    · simp [NewClientWithConfig, h, DefaultTimeout]
  · decide

/-! Decomposition of the path-pattern matcher: every match splits the input
and is nonempty, which also justifies the fuel bound of `resolveGo`. -/

theorem matchExtList_decomp {es : List (List Char)} {t e rest : List Char}
    (h : matchExtList es t = some (e, rest)) : t = e ++ rest := by
  induction es with
  | nil => simp [matchExtList] at h
  | cons e0 es ih =>
    unfold matchExtList at h
    rcases hb : (e0.isPrefixOf t && wordBoundaryAfter (t.drop e0.length)) with - | -
    · rw [hb] at h
      simp only [Bool.false_eq_true, if_false] at h
      exact ih h
    · rw [hb] at h
      simp only [if_true, Option.some.injEq, Prod.mk.injEq] at h
      obtain ⟨he, hrest⟩ := h
      subst he
      subst hrest
      have hb2 := hb
      rw [Bool.and_eq_true] at hb2
      obtain ⟨u, hu⟩ := List.isPrefixOf_iff_prefix.mp hb2.1
      rw [← hu, List.drop_left]

theorem tryExtAt_decomp {s : List Char} {k : Nat} {m rest : List Char}
    (h : tryExtAt s k = some (m, rest)) : s = m ++ rest ∧ m ≠ [] := by
  unfold tryExtAt at h
  by_cases hd : (s.drop k).head? = some '.'
  · rw [if_pos hd] at h
    rcases hx : matchExtList pathExtensions (s.drop (k + 1)) with - | ⟨e, r2⟩
    · rw [hx] at h
      simp at h
    · rw [hx] at h
      simp only [Option.some.injEq, Prod.mk.injEq] at h
      obtain ⟨hm, hrest⟩ := h
      have hde : s.drop (k + 1) = e ++ r2 := matchExtList_decomp hx
      have hk : k < s.length := by
        by_contra hk2
        push_neg at hk2
        rw [List.drop_eq_nil_of_le hk2] at hd
        simp at hd
      constructor
      · rw [← hm, ← hrest, List.append_assoc, ← hde, List.take_append_drop]
      · intro hmn
        rw [← hm] at hmn
        have htk := (List.append_eq_nil.mp hmn).1
        rcases List.take_eq_nil_iff.mp htk with h0 | h0
        · exact Nat.succ_ne_zero k h0
        · rw [h0] at hk
          simp at hk
  · rw [if_neg hd] at h
    simp at h

theorem matchBAux_decomp {s : List Char} {k : Nat} {m rest : List Char}
    (h : matchBAux s k = some (m, rest)) : s = m ++ rest ∧ m ≠ [] := by
  induction k with
  | zero => exact tryExtAt_decomp h
  | succ k ih =>
    unfold matchBAux at h
    rcases ht : tryExtAt s (k + 1) with - | ⟨m2, r2⟩
    · simp only [ht] at h
      exact ih h
    · simp only [ht, Option.some.injEq, Prod.mk.injEq] at h
      obtain ⟨rfl, rfl⟩ := h
      exact tryExtAt_decomp ht

theorem matchAltA_eq_of_take2 {s : List Char} (h2 : s.take 2 = ['.', '/']) :
    matchAltA s =
      (if ((s.drop 2).takeWhile pathChar).isEmpty then none
       else some (s.take 2 ++ (s.drop 2).takeWhile pathChar,
         (s.drop 2).dropWhile pathChar)) := by
  unfold matchAltA
  rw [if_pos h2]

theorem matchAltA_eq_of_take3 {s : List Char} (h2 : ¬s.take 2 = ['.', '/'])
    (h3 : s.take 3 = ['.', '.', '/']) :
    matchAltA s =
      (if ((s.drop 3).takeWhile pathChar).isEmpty then none
       else some (s.take 3 ++ (s.drop 3).takeWhile pathChar,
         (s.drop 3).dropWhile pathChar)) := by
  unfold matchAltA
  rw [if_neg h2, if_pos h3]

theorem matchAltA_eq_none {s : List Char} (h2 : ¬s.take 2 = ['.', '/'])
    (h3 : ¬s.take 3 = ['.', '.', '/']) : matchAltA s = none := by
  unfold matchAltA
  rw [if_neg h2, if_neg h3]

theorem matchAltA_decomp {s m rest : List Char}
    (h : matchAltA s = some (m, rest)) : s = m ++ rest ∧ m ≠ [] := by
  have core : ∀ k : Nat,
      (if ((s.drop k).takeWhile pathChar).isEmpty then none
       else some (s.take k ++ (s.drop k).takeWhile pathChar,
         (s.drop k).dropWhile pathChar)) = some (m, rest) →
      s = m ++ rest ∧ m ≠ [] := by
    intro k hk
    by_cases hrun : ((s.drop k).takeWhile pathChar).isEmpty
    · rw [if_pos hrun] at hk
      exact absurd hk (by simp)
    · rw [if_neg hrun] at hk
      simp only [Option.some.injEq, Prod.mk.injEq] at hk
      obtain ⟨hm, hrest⟩ := hk
      constructor
      · rw [← hm, ← hrest, List.append_assoc, List.takeWhile_append_dropWhile,
          List.take_append_drop]
      · intro hmn
        rw [← hm] at hmn
        have := (List.append_eq_nil.mp hmn).2
        exact hrun (by rw [this]; rfl)
  by_cases h2 : s.take 2 = ['.', '/']
  · rw [matchAltA_eq_of_take2 h2] at h
    exact core 2 h
  · by_cases h3 : s.take 3 = ['.', '.', '/']
    · rw [matchAltA_eq_of_take3 h2 h3] at h
      exact core 3 h
    · rw [matchAltA_eq_none h2 h3] at h
      exact absurd h (by simp)

theorem matchPathToken_decomp {s m rest : List Char}
    (h : matchPathToken s = some (m, rest)) : s = m ++ rest ∧ m ≠ [] := by
  unfold matchPathToken at h
  rcases ha : matchAltA s with - | ⟨m2, r2⟩
  · rw [ha] at h
    exact matchBAux_decomp h
  · rw [ha] at h
    simp only [Option.some.injEq, Prod.mk.injEq] at h
    obtain ⟨rfl, rfl⟩ := h
    exact matchAltA_decomp ha

theorem findPathToken_decomp {s pre m rest : List Char}
    (h : findPathToken s = some (pre, m, rest)) :
    s = pre ++ m ++ rest ∧ m ≠ [] := by
  induction s generalizing pre m rest with
  | nil => simp [findPathToken] at h
  | cons c cs ih =>
    unfold findPathToken at h
    rcases hm : matchPathToken (c :: cs) with - | ⟨m2, r2⟩
    · simp only [hm] at h
      rcases hf : findPathToken cs with - | ⟨p3, m3, r3⟩
      · simp [hf] at h
      · simp only [hf, Option.some.injEq, Prod.mk.injEq] at h
        obtain ⟨hp, hm3, hr⟩ := h
        obtain ⟨hs3, hm3n⟩ := ih hf
        subst hp hm3 hr
        refine ⟨?_, hm3n⟩
        rw [List.cons_append, List.cons_append, ← hs3]
    · simp only [hm, Option.some.injEq, Prod.mk.injEq] at h
      obtain ⟨hp, hm2, hr⟩ := h
      obtain ⟨hs2, hm2n⟩ := matchPathToken_decomp hm
      subst hp hm2 hr
      simpa using ⟨hs2, hm2n⟩

theorem resolveGo_nil (baseDir : List Char) (fuel : Nat) :
    resolveGo baseDir fuel [] = [] := by
  cases fuel with
  | zero => rfl
  | succ n => rfl

theorem resolveGo_fuel (baseDir : List Char) :
    ∀ fuel1 : Nat, ∀ s : List Char, ∀ fuel2 : Nat,
      s.length ≤ fuel1 → s.length ≤ fuel2 →
      resolveGo baseDir fuel1 s = resolveGo baseDir fuel2 s := by
  intro fuel1
  induction fuel1 with
  | zero =>
    intro s fuel2 h1 h2
    rw [List.eq_nil_of_length_eq_zero (Nat.le_zero.mp h1), resolveGo_nil,
      resolveGo_nil]
  | succ n ih =>
    intro s fuel2 h1 h2
    cases fuel2 with
    | zero =>
      rw [List.eq_nil_of_length_eq_zero (Nat.le_zero.mp h2), resolveGo_nil,
        resolveGo_nil]
    | succ k =>
      show (match findPathToken s with
        | none => s
        | some (pre, m, rest) =>
          pre ++ resolvePathToken baseDir m ++ resolveGo baseDir n rest) =
        (match findPathToken s with
        | none => s
        | some (pre, m, rest) =>
          pre ++ resolvePathToken baseDir m ++ resolveGo baseDir k rest)
      rcases hf : findPathToken s with - | ⟨pre, m, rest⟩
      · rfl
      · simp only
        obtain ⟨hs, hmne⟩ := findPathToken_decomp hf
        have hm1 : 1 ≤ m.length := List.length_pos.mpr hmne
        have hrl : rest.length + 1 ≤ s.length := by
          rw [hs]
          simp only [List.length_append]
          omega
        rw [ih rest k (by omega) (by omega)]

theorem resolveRelativePaths_step {prompt baseDir pre m rest : List Char}
    (hfind : findPathToken prompt = some (pre, m, rest)) :
    (resolveRelativePaths prompt baseDir).1 =
      pre ++ resolvePathToken baseDir m ++ (resolveRelativePaths rest baseDir).1 := by
  obtain ⟨hs, hmne⟩ := findPathToken_decomp hfind
  have hm1 : 1 ≤ m.length := List.length_pos.mpr hmne
  have hlen : rest.length + 1 ≤ prompt.length := by
    rw [hs]
    simp only [List.length_append]
    omega
  show resolveGo baseDir prompt.length prompt = _
  rw [resolveGo_fuel baseDir prompt.length prompt (prompt.length + 1)
    (by omega) (by omega)]
  show (match findPathToken prompt with
    | none => prompt
    | some (pre, m, rest) =>
      pre ++ resolvePathToken baseDir m ++ resolveGo baseDir prompt.length rest) = _
  rw [hfind]
  show pre ++ resolvePathToken baseDir m ++ resolveGo baseDir prompt.length rest =
    pre ++ resolvePathToken baseDir m ++ resolveGo baseDir rest.length rest
  rw [resolveGo_fuel baseDir prompt.length rest rest.length (by omega) le_rfl]

theorem resolveRelativePaths_no_match {prompt baseDir : List Char}
    (hfind : findPathToken prompt = none) :
    resolveRelativePaths prompt baseDir = (prompt, none) := by
  unfold resolveRelativePaths
  rcases hl : prompt.length with - | n
  · rw [List.eq_nil_of_length_eq_zero hl, resolveGo_nil]
  · show (match findPathToken prompt with
      | none => prompt
      | some (pre, m, rest) =>
        pre ++ resolvePathToken baseDir m ++ resolveGo baseDir n rest, none) =
      (prompt, none)
    rw [hfind]

/-- Claim C5: for every prompt and nonempty base directory,
`resolveRelativePaths` rewrites the prompt in one left-to-right pass: text
before the leftmost path-like token is kept untouched, the token is replaced
— unchanged when it is already absolute, otherwise by the normalized join of
the base directory and the token — and the remainder is processed the same
way, so multiple independent matches are all handled; a prompt with no
path-like token is returned unchanged.  The two spec examples evaluate
accordingly. -/
theorem c5_resolve_paths (prompt baseDir : List Char) (hbase : baseDir ≠ []) :
    (findPathToken prompt = none →
      resolveRelativePaths prompt baseDir = (prompt, none)) ∧
    (∀ pre m rest, findPathToken prompt = some (pre, m, rest) →
      (resolveRelativePaths prompt baseDir).1 =
        pre ++ resolvePathToken baseDir m ++ (resolveRelativePaths rest baseDir).1) ∧
    (∀ m, trimSpace m = m → filepathIsAbs m = true →
      resolvePathToken baseDir m = m) ∧
    (∀ m, m ≠ [] → trimSpace m = m → filepathIsAbs m = false →
      resolvePathToken baseDir m = filepathClean (filepathJoin2 baseDir m)) ∧
    (resolveRelativePaths ("Analyze ./main.go".data) ("/project/src".data)).1 =
      "Analyze /project/src/main.go".data ∧
    (resolveRelativePaths ("Compare ./local.txt with /absolute/remote.txt".data)
        ("/project".data)).1 =
      "Compare /project/local.txt with /absolute/remote.txt".data := by
  refine ⟨fun h => resolveRelativePaths_no_match h,
    fun pre m rest h => resolveRelativePaths_step h, ?_, ?_, by decide, by decide⟩
  · intro m htrim habs
    simp [resolvePathToken, htrim, habs]
  · intro m hne htrim habs
    simp [resolvePathToken, htrim, habs, List.isEmpty_iff, hne]

/-- Claim C5, witness: the first spec example, instantiating the theorem at
a concrete prompt and nonempty base directory. -/
theorem c5_resolve_paths_witness :
    (resolveRelativePaths ("Analyze ./main.go".data) ("/project/src".data)).1 =
      "Analyze /project/src/main.go".data :=
  (c5_resolve_paths ("Analyze ./main.go".data) ("/project/src".data)
    (by decide)).2.2.2.2.1

/-- Claim C9: `resolveRelativePaths` never returns an error — the error
component is `none` for every prompt and base directory; with an empty base
directory a matched relative token is still joined and normalized
(`filepath.Clean(filepath.Join("", m))`, a path interpreted relative to the
current directory); the spec example evaluates accordingly, normalization
dropping the explicit `./` prefix. -/
theorem c9_resolve_no_error (prompt baseDir : List Char) :
    (resolveRelativePaths prompt baseDir).2 = none ∧
    (∀ m, m ≠ [] → trimSpace m = m → filepathIsAbs m = false →
      resolvePathToken [] m = filepathClean (filepathJoin2 [] m)) ∧
    (resolveRelativePaths ("Analyze ./main.go".data) []).1 =
      "Analyze main.go".data := by
  refine ⟨rfl, ?_, by decide⟩
  intro m hne htrim habs
  simp [resolvePathToken, htrim, habs, List.isEmpty_iff, hne]


/-- Claim C9, witness: instantiating the theorem at a concrete prompt and
the empty base directory. -/
theorem c9_resolve_no_error_witness :
    (resolveRelativePaths ("Analyze ./main.go".data) []).2 = none :=
  (c9_resolve_no_error ("Analyze ./main.go".data) []).1

/-- Claim C3: for every client, calling `Execute` or `ExecuteWithTimeout`
with the empty prompt returns the empty-prompt error with an empty side
effect trace: no path lookup, no process start, independent of every OS
response. -/
theorem c3_empty_prompt (c : Client) (env : ExecEnv) (t : Int) :
    Execute c [] env = (.error (.msg ErrEmptyPrompt), []) ∧
    ExecuteWithTimeout c [] t env = (.error (.msg ErrEmptyPrompt), []) :=
  ⟨rfl, rfl⟩

/-- Claim C7: the race in `runCommandWithTimeout` is decided once by which
branch fires first.  Timer first: the process is killed and the
timeout diagnostic naming the configured duration is returned, and the
result is independent of whatever the abandoned process would eventually
produce.  Completion first: no kill happens, and a zero-exit completion
returns its stdout. -/
theorem c7_timeout_race (path dir : List Char) (args : List (List Char))
    (t : Int) (e1 e2 : Bool) (o1 s1 o2 s2 : List Char) :
    runCommandWithTimeout path args dir (.timedOut e1 o1 s1) t =
      (.error (.timeoutAfter ErrCommandTimeout t),
       [.processStart path args dir, .processKill]) ∧
    runCommandWithTimeout path args dir (.timedOut e1 o1 s1) t =
      runCommandWithTimeout path args dir (.timedOut e2 o2 s2) t ∧
    (∀ exitErr stdout stderr,
      (runCommandWithTimeout path args dir (.completed exitErr stdout stderr) t).2 =
        [.processStart path args dir]) ∧
    (∀ stdout stderr,
      (runCommandWithTimeout path args dir (.completed false stdout stderr) t).1 =
        .ok stdout) := by
  refine ⟨rfl, rfl, ?_, fun _ _ => rfl⟩
  intro exitErr stdout stderr
  cases exitErr
  · rfl
  · by_cases h : detectAuthError (stdout ++ stderr) <;>
      simp [runCommandWithTimeout, h]

end GeminiCli
